import Mathlib

/-!
# Physical page allocator with reference counts (`kernel/kalloc.c`)

A shallow embedding of the allocator: the `kmem` record (free-list head,
free-page counter, reference-count table) together with the byte memory in
which the free list is threaded, and the operations `kinit`, `kfree`,
`kalloc`, `getFreePagesCount`, `inc_refCount`, `dec_refCount`,
`get_refCount`.

Conventions.
* Addresses and table indices are natural numbers.  `uint` arithmetic that can
  wrap (`free_pages ± 1`, `ref_cnt[i] ± 1` in the counting helpers) is written
  with an explicit `% 2 ^ 32`.  Pointer arithmetic is exact; the layouts
  considered for `kinit` (`Layout.ok`) keep every address it computes below
  `2 ^ 32`.
* The free list lives in memory, as in the code: the `next` field of a node is
  the little-endian word stored in the first four bytes of the frame.
* The lock is not modelled: every operation is one atomic step on the state.
* `panic` does not return; an operation that reaches it yields
  `Outcome.panic msg s` where `s` is the state at the moment of the call.
-/

namespace Kalloc

/-! ## Constants and macros of `mmu.h` / `param.h` -/

/-- Modelled from the spec: the macro `PGSIZE` of `mmu.h` is not part of the
sources at hand; the frame size is 4096 bytes. -/
def PGSIZE : Nat := 4096

/-- Modelled from the spec: the macro `PGSHIFT` of `mmu.h` (log2 of `PGSIZE`,
as the comment in `inc_refCount` says); the frame index is the physical
address divided by the frame size. -/
def PGSHIFT : Nat := 12

/-- Modelled from the spec: the macro `PGROUNDUP` of `mmu.h`, rounding an
address up to the next multiple of the frame size. -/
def PGROUNDUP (sz : Nat) : Nat := (sz + PGSIZE - 1) / PGSIZE * PGSIZE

/-- Modelled from the spec: the macro `PADDR` of `mmu.h`.  Frames are identified
by their physical address and callers pass physical addresses; `kfree` itself
compares `v` with `PHYSTOP` directly, so kernel pointers are physical
addresses and the conversion is the identity cast. -/
def PADDR (a : Nat) : Nat := a

/-- The two link-time parameters of the allocator: `kend` is the address of the
symbol `end` (first address after the kernel image), `PHYSTOP` the top of
physical memory. -/
structure Layout where
  kend : Nat
  PHYSTOP : Nat

/-! ## State -/

/-- The global `kmem` (without its lock) and the byte-addressed memory that
holds the frames. `freelist = 0` is the null pointer. -/
structure State where
  freelist : Nat
  free_pages : Nat
  ref_cnt : Nat → Nat
  mem : Nat → Nat

/-- Result of an operation that may call `panic`. -/
inductive Outcome (α : Type) where
  | ok (val : α) (s : State)
  | panic (msg : String) (s : State)

/-- The operation reached `panic`. -/
def Outcome.isPanic {α : Type} : Outcome α → Bool
  | .ok _ _ => false
  | .panic _ _ => true

/-- State in which the operation ended (for a panic: the state at the call). -/
def Outcome.state {α : Type} : Outcome α → State
  | .ok _ s => s
  | .panic _ s => s

/-! ## Memory primitives -/

/-- The library routine `memset(dst, c, n)` on the byte memory. -/
def memset (m : Nat → Nat) (dst c n : Nat) : Nat → Nat :=
  fun a => if dst ≤ a ∧ a < dst + n then c % 256 else m a

/-- Read of the field `next` of the `struct run` at address `a`: a 4-byte
little-endian pointer. -/
def loadNext (m : Nat → Nat) (a : Nat) : Nat :=
  m a + 256 * m (a + 1) + 65536 * m (a + 2) + 16777216 * m (a + 3)

/-- Write of the field `next` of the `struct run` at address `a`. -/
def storeNext (m : Nat → Nat) (a w : Nat) : Nat → Nat :=
  fun x =>
    if x = a then w % 256
    else if x = a + 1 then w / 256 % 256
    else if x = a + 2 then w / 65536 % 256
    else if x = a + 3 then w / 16777216 % 256
    else m x

/-! ## Operations -/

/-- The function `kfree(char *v)`. -/
def kfree (L : Layout) (s : State) (v : Nat) : Outcome Unit :=
  if v % PGSIZE ≠ 0 ∨ v < L.kend ∨ v ≥ L.PHYSTOP then
    .panic "kfree" s
  else
    let s1 : State := { s with mem := memset s.mem v 1 PGSIZE }
    let i := PADDR v >>> PGSHIFT
    let s2 : State :=
      if s1.ref_cnt i > 0 then
        { s1 with ref_cnt := Function.update s1.ref_cnt i (s1.ref_cnt i - 1) }
      else s1
    if s2.ref_cnt i = 0 then
      .ok () { s2 with
        mem := storeNext (memset s2.mem v 1 PGSIZE) v s2.freelist
        freelist := v
        free_pages := (s2.free_pages + 1) % 2 ^ 32 }
    else
      .ok () s2

/-- The function `kalloc(void)`; the returned address 0 means no frame. -/
def kalloc (s : State) : Nat × State :=
  let r := s.freelist
  if r ≠ 0 then
    (r, { s with
      freelist := loadNext s.mem r
      ref_cnt := Function.update s.ref_cnt (PADDR r >>> PGSHIFT) 1
      free_pages := (s.free_pages + (2 ^ 32 - 1)) % 2 ^ 32 })
  else
    (r, s)

/-- Conversion of a `uint` to the `int` a function returns. -/
def toInt32 (u : Nat) : Int :=
  if u % 2 ^ 32 < 2 ^ 31 then ((u % 2 ^ 32 : Nat) : Int)
  else ((u % 2 ^ 32 : Nat) : Int) - 2 ^ 32

/-- The function `getFreePagesCount(void)`: value returned and final state. -/
def getFreePagesCount (s : State) : Int × State :=
  (toInt32 s.free_pages, s)

/-- The function `inc_refCount(uint pa)`. -/
def inc_refCount (L : Layout) (s : State) (pa : Nat) : Outcome Unit :=
  if pa ≥ L.PHYSTOP ∨ pa < PADDR L.kend then
    .panic "increment count of references" s
  else
    .ok () { s with
      ref_cnt := Function.update s.ref_cnt (pa >>> PGSHIFT)
        ((s.ref_cnt (pa >>> PGSHIFT) + 1) % 2 ^ 32) }

/-- The function `dec_refCount(uint pa)`. -/
def dec_refCount (L : Layout) (s : State) (pa : Nat) : Outcome Unit :=
  if pa ≥ L.PHYSTOP ∨ pa < PADDR L.kend then
    .panic "decrement count of references" s
  else
    .ok () { s with
      ref_cnt := Function.update s.ref_cnt (pa >>> PGSHIFT)
        ((s.ref_cnt (pa >>> PGSHIFT) + (2 ^ 32 - 1)) % 2 ^ 32) }

/-- The function `get_refCount(uint pa)`. -/
def get_refCount (L : Layout) (s : State) (pa : Nat) : Outcome Nat :=
  if pa ≥ L.PHYSTOP ∨ pa < PADDR L.kend then
    .panic "get reference count" s
  else
    .ok (s.ref_cnt (pa >>> PGSHIFT)) s

/-- The loop of `kinit`: `for(; p + PGSIZE <= PHYSTOP; p += PGSIZE) kfree(p)`. -/
def kinitLoop (L : Layout) (p : Nat) (s : State) : Outcome Unit :=
  if p + PGSIZE ≤ L.PHYSTOP then
    match kfree L s p with
    | .ok _ s1 => kinitLoop L (p + PGSIZE) s1
    | .panic msg s1 => .panic msg s1
  else
    .ok () s
termination_by L.PHYSTOP - p
decreasing_by
  simp only [PGSIZE] at *
  omega

/-- The function `kinit(void)`. -/
def kinit (L : Layout) (s : State) : Outcome Unit :=
  kinitLoop L (PGROUNDUP L.kend) s

/-- The zero-initialised `kmem` of a freshly loaded kernel, over memory `m`. -/
def boot (m : Nat → Nat) : State :=
  { freelist := 0, free_pages := 0, ref_cnt := fun _ => 0, mem := m }

/-! ## The free list as a sequence of frames -/

/-- The free list starting at pointer `p` is exactly the sequence `l`: every
node is a non-null address whose `next` field points to the following node,
and the last `next` is null. -/
def FreeChain (m : Nat → Nat) : Nat → List Nat → Prop
  | p, [] => p = 0
  | p, x :: xs => p = x ∧ x ≠ 0 ∧ FreeChain m (loadNext m x) xs

/-- The pointer met after following `k` links from `p` (null once the end of
the list has been passed). -/
def walk (m : Nat → Nat) : Nat → Nat → Nat
  | p, 0 => p
  | p, k + 1 => if p = 0 then 0 else walk m (loadNext m p) k

/-- Frame `a` is reached by walking the free list from its head. -/
def onFreeList (s : State) (a : Nat) : Prop :=
  a ≠ 0 ∧ ∃ k, walk s.mem s.freelist k = a

/-- The check of `kfree` lets address `v` through. -/
def kfreeAccepts (L : Layout) (v : Nat) : Prop :=
  v % PGSIZE = 0 ∧ L.kend ≤ v ∧ v < L.PHYSTOP

instance (L : Layout) (v : Nat) : Decidable (kfreeAccepts L v) := by
  unfold kfreeAccepts
  infer_instance

/-- The frames `start, start + 4096, ...` (`n` of them), highest address
first. -/
def framesDesc (start : Nat) : Nat → List Nat
  | 0 => []
  | n + 1 => (start + n * PGSIZE) :: framesDesc start n

/-- Call `kalloc` `n` times in a row: the addresses returned, in order, and
the final state. -/
def kallocN : Nat → State → List Nat × State
  | 0, s => ([], s)
  | n + 1, s => ((kalloc s).1 :: (kallocN n (kalloc s).2).1, (kallocN n (kalloc s).2).2)

/-- A layout of the 32-bit machine: the kernel image is not empty (so `end` is
not the null address) and lies in physical memory, and physical memory stops
at least two frames short of the end of the 4 GiB address space, so that no
address computed by `kinit` overflows a pointer. -/
def Layout.ok (L : Layout) : Prop :=
  0 < L.kend ∧ L.kend ≤ L.PHYSTOP ∧ L.PHYSTOP + 2 * PGSIZE ≤ 2 ^ 32

instance (L : Layout) : Decidable L.ok := by
  unfold Layout.ok
  infer_instance

/-- Address `a` is a whole frame of the allocatable range: the addresses
`kinit` hands to `kfree`. -/
def isFrame (L : Layout) (a : Nat) : Prop :=
  a % PGSIZE = 0 ∧ PGROUNDUP L.kend ≤ a ∧ a + PGSIZE ≤ L.PHYSTOP

instance (L : Layout) (a : Nat) : Decidable (isFrame L a) := by
  unfold isFrame
  infer_instance

/-- The free-page counter agrees with the free list: the frames reached by
walking the list from its head are exactly the members of a duplicate-free
list `l`, and `getFreePagesCount` returns the length of `l`. -/
def CounterMatches (s : State) : Prop :=
  ∃ l : List Nat, l.Nodup ∧ (∀ a, a ∈ l ↔ onFreeList s a) ∧
    (getFreePagesCount s).1 = (l.length : Int)

/-- Number of whole frames in the allocatable range of layout `L`. -/
def frameCount (L : Layout) : Nat := (L.PHYSTOP - PGROUNDUP L.kend) / PGSIZE

/-- State of the pool while `kinit` runs, after the first `k` frames of the
range have been handed to `kfree`. -/
def Seeded (L : Layout) (s : State) (k : Nat) : Prop :=
  FreeChain s.mem s.freelist (framesDesc (PGROUNDUP L.kend) k) ∧ s.free_pages = k ∧
    (∀ i, s.ref_cnt i = 0) ∧ s.freelist < 2 ^ 32

/-- The free list of `s` is the duplicate-free sequence `l` of addresses that
`kfree` accepts, and the free-page counter is its length. -/
def ListInv (L : Layout) (s : State) (l : List Nat) : Prop :=
  FreeChain s.mem s.freelist l ∧ l.Nodup ∧ (∀ x ∈ l, kfreeAccepts L x) ∧
    s.free_pages = l.length

/-- One call into the allocator. -/
inductive Op where
  | alloc
  | free (v : Nat)
  | inc (pa : Nat)
  | dec (pa : Nat)

/-- Effect of one call on the state (the value returned by `kalloc` is
dropped). -/
def step (L : Layout) (s : State) : Op → Outcome Unit
  | .alloc => .ok () (kalloc s).2
  | .free v => kfree L s v
  | .inc pa => inc_refCount L s pa
  | .dec pa => dec_refCount L s pa

/-- History flag per frame address: `true` when the frame has been passed to
`kfree` since it was last returned by `kalloc`, or has never been returned by
`kalloc`.  This is its update by one call made in state `s`. -/
def histStep (g : Nat → Bool) (s : State) : Op → (Nat → Bool)
  | .alloc => if s.freelist ≠ 0 then Function.update g (kalloc s).1 false else g
  | .free v => Function.update g v true
  | .inc _ => g
  | .dec _ => g

/-- States reachable from `kinit` on the zero-initialised pool by calls that
do not panic and that satisfy the caller discipline `G` at the time of the
call, together with the history flags of the frames. -/
inductive ReachH (L : Layout) (G : State → Op → Prop) : State → (Nat → Bool) → Prop where
  | init (m0 : Nat → Nat) (t : State) :
      kinit L (boot m0) = .ok () t → ReachH L G t (fun _ => true)
  | call (s : State) (g : Nat → Bool) (op : Op) (t : State) :
      ReachH L G s g → G s op → step L s op = .ok () t → ReachH L G t (histStep g s op)

/-- States reachable from `kinit` under the caller discipline `G`. -/
def Reach (L : Layout) (G : State → Op → Prop) (s : State) : Prop :=
  ∃ g, ReachH L G s g

/-- No discipline: any call that the operation accepts. -/
def anyCall (_ : State) (_ : Op) : Prop := True

/-- Discipline: `kfree` is only applied to frames that are not on the free list. -/
def freeOffList (s : State) : Op → Prop
  | .free v => ¬ onFreeList s v
  | _ => True

/-- Discipline: `kfree`, `inc_refCount` and `dec_refCount` are only applied to
frames that are held, i.e. whose reference count is at least 1. -/
def heldOnly (s : State) : Op → Prop
  | .alloc => True
  | .free v => 1 ≤ s.ref_cnt (PADDR v >>> PGSHIFT)
  | .inc pa => 1 ≤ s.ref_cnt (pa >>> PGSHIFT)
  | .dec pa => 1 ≤ s.ref_cnt (pa >>> PGSHIFT)

/-- A small layout used for concrete instances: the kernel image ends at
address 4096 and physical memory ends at 16384, leaving three frames. -/
def demoLayout : Layout := { kend := 4096, PHYSTOP := 16384 }

/-- A concrete state with the single free frame 8192 on the free list. -/
def demoState : State :=
  { freelist := 8192, free_pages := 1, ref_cnt := fun _ => 0, mem := fun _ => 0 }

/-- A layout with a single frame, at address 4096. -/
def oneFrame : Layout := { kend := 4096, PHYSTOP := 8192 }

/-- The state `kinit` produces in layout `oneFrame` from zeroed memory. -/
def oneFrameInit : State :=
  { freelist := 4096
    free_pages := 1
    ref_cnt := fun _ => 0
    mem := storeNext (memset (memset (fun _ => 0) 4096 1 PGSIZE) 4096 1 PGSIZE) 4096 0 }

/-- The state after `kinit` in layout `oneFrame` followed by `kfree(4096)`: the
only frame is freed a second time. -/
def doubleFreeState : State := (kfree oneFrame oneFrameInit 4096).state

/-- Run a sequence of calls from state `s` with history flags `g`. -/
def runOps (L : Layout) : State → (Nat → Bool) → List Op → State × (Nat → Bool)
  | s, g, [] => (s, g)
  | s, g, op :: ops => runOps L (step L s op).state (histStep g s op) ops

/-- Every call of the sequence satisfies the discipline `G` and does not
panic. -/
def RunOk (L : Layout) (G : State → Op → Prop) : State → List Op → Prop
  | _, [] => True
  | s, op :: ops =>
    G s op ∧ (step L s op).isPanic = false ∧ RunOk L G (step L s op).state ops

/-- In layout `oneFrame`, after `kinit`: allocate the frame, share it, and free
it twice. -/
def sharedRun : State × (Nat → Bool) :=
  runOps oneFrame oneFrameInit (fun _ => true)
    [Op.alloc, Op.inc 4096, Op.free 4096, Op.free 4096]

/-- Free the addresses of a list one after the other, stopping at the first
panic. -/
def kfreeList (L : Layout) : State → List Nat → Outcome Unit
  | s, [] => .ok () s
  | s, v :: vs =>
    match kfree L s v with
    | .ok _ t => kfreeList L t vs
    | .panic msg t => .panic msg t

/-- Sharing scenario, stage 1: the state after `inc_refCount(a)` on the frame
`a` just returned by `kalloc`. -/
def afterInc (L : Layout) (s : State) : State :=
  (inc_refCount L (kalloc s).2 (kalloc s).1).state

/-- Sharing scenario, stage 2: the state after the first `kfree(a)`. -/
def afterFree1 (L : Layout) (s : State) : State :=
  (kfree L (afterInc L s) (kalloc s).1).state

/-- Sharing scenario, stage 3: the state after the second `kfree(a)`. -/
def afterFree2 (L : Layout) (s : State) : State :=
  (kfree L (afterFree1 L s) (kalloc s).1).state

/-- In layout `oneFrame`, after `kinit`: raise the count of the free frame to 2
with two `inc_refCount` calls, free it once (it is scrubbed but not pushed),
then allocate. -/
def scrubbedRun : State × (Nat → Bool) :=
  runOps oneFrame oneFrameInit (fun _ => true)
    [Op.inc 4096, Op.inc 4096, Op.free 4096, Op.alloc]

theorem layout_ok_bounds (L : Layout) (hL : L.ok) : 0 < L.kend ∧ L.PHYSTOP ≤ 2 ^ 32 := by
  obtain ⟨h1, _, h3⟩ := hL
  simp only [PGSIZE] at h3
  exact ⟨h1, by omega⟩

theorem shift_eq_div (a : Nat) : a >>> PGSHIFT = a / 4096 := by
  simp [PGSHIFT, Nat.shiftRight_eq_div_pow]

theorem loadNext_storeNext (m : Nat → Nat) (a w : Nat) (hw : w < 2 ^ 32) :
    loadNext (storeNext m a w) a = w := by
  simp only [loadNext, storeNext]
  simp
  omega

theorem kfree_panic_eq (L : Layout) (s : State) (v : Nat)
    (h : v % PGSIZE ≠ 0 ∨ v < L.kend ∨ v ≥ L.PHYSTOP) :
    kfree L s v = .panic "kfree" s := by
  simp only [kfree, if_pos h]

theorem kfree_isPanic_iff (L : Layout) (s : State) (v : Nat) :
    (kfree L s v).isPanic = true ↔ (v % PGSIZE ≠ 0 ∨ v < L.kend ∨ v ≥ L.PHYSTOP) := by
  by_cases h : v % PGSIZE ≠ 0 ∨ v < L.kend ∨ v ≥ L.PHYSTOP
  · rw [kfree_panic_eq L s v h]
    exact ⟨fun _ => h, fun _ => rfl⟩
  · refine ⟨fun hp => ?_, fun h2 => absurd h2 h⟩
    exfalso
    revert hp
    simp only [kfree, if_neg h]
    split_ifs <;> simp [Outcome.isPanic]

theorem kfree_accepts_iff (L : Layout) (s : State) (v : Nat) :
    (kfree L s v).isPanic = false ↔ kfreeAccepts L v := by
  have h := kfree_isPanic_iff L s v
  unfold kfreeAccepts
  cases hp : (kfree L s v).isPanic
  · simp only [hp, Bool.false_eq_true, false_iff, not_or, not_not, not_lt, ge_iff_le] at h
    simp only [true_iff]
    omega
  · simp only [hp, true_iff] at h
    simp only [Bool.true_eq_false, false_iff]
    omega

/-- Final state of an accepted `kfree` that leaves the frame shared. -/
theorem kfree_share_eq (L : Layout) (s : State) (v : Nat) (hv : kfreeAccepts L v)
    (hc : 2 ≤ s.ref_cnt (v / 4096)) :
    kfree L s v = .ok () { s with
      mem := memset s.mem v 1 PGSIZE
      ref_cnt := Function.update s.ref_cnt (v / 4096) (s.ref_cnt (v / 4096) - 1) } := by
  obtain ⟨h1, h2, h3⟩ := hv
  have hn : ¬ (v % PGSIZE ≠ 0 ∨ v < L.kend ∨ v ≥ L.PHYSTOP) := by omega
  have hpos : s.ref_cnt (v / 4096) > 0 := by omega
  have hne : ¬ (s.ref_cnt (v / 4096) - 1 = 0) := by omega
  simp only [kfree, if_neg hn, PADDR, shift_eq_div, if_pos hpos, Function.update_same,
    if_neg hne]

/-- Final state of an accepted `kfree` that puts the frame on the free list. -/
theorem kfree_push_eq (L : Layout) (s : State) (v : Nat) (hv : kfreeAccepts L v)
    (hc : s.ref_cnt (v / 4096) ≤ 1) :
    kfree L s v = .ok () { s with
      mem := storeNext (memset (memset s.mem v 1 PGSIZE) v 1 PGSIZE) v s.freelist
      ref_cnt := Function.update s.ref_cnt (v / 4096) 0
      freelist := v
      free_pages := (s.free_pages + 1) % 2 ^ 32 } := by
  obtain ⟨h1, h2, h3⟩ := hv
  have hn : ¬ (v % PGSIZE ≠ 0 ∨ v < L.kend ∨ v ≥ L.PHYSTOP) := by omega
  by_cases hpos : s.ref_cnt (v / 4096) > 0
  · have h1c : s.ref_cnt (v / 4096) - 1 = 0 := by omega
    simp only [kfree, if_neg hn, PADDR, shift_eq_div, if_pos hpos, Function.update_same,
      h1c, if_true]
  · have h0 : s.ref_cnt (v / 4096) = 0 := by omega
    have hu : Function.update s.ref_cnt (v / 4096) 0 = s.ref_cnt := by
      rw [← h0]; exact Function.update_eq_self _ _
    have h00 : ¬ ((0 : Nat) > 0) := by omega
    simp only [kfree, if_neg hn, PADDR, shift_eq_div, h0, if_neg h00, if_true, hu]

theorem loadNext_congr (m1 m2 : Nat → Nat) (a : Nat)
    (h : ∀ j, j < 4 → m1 (a + j) = m2 (a + j)) : loadNext m1 a = loadNext m2 a := by
  have h0 := h 0 (by omega)
  have h1 := h 1 (by omega)
  have h2 := h 2 (by omega)
  have h3 := h 3 (by omega)
  simp only [Nat.add_zero] at h0
  simp only [loadNext, h0, h1, h2, h3]

theorem FreeChain_congr (m1 m2 : Nat → Nat) (l : List Nat) :
    ∀ p, (∀ x ∈ l, ∀ j, j < 4 → m1 (x + j) = m2 (x + j)) →
      FreeChain m1 p l → FreeChain m2 p l := by
  induction l with
  | nil => intro p _ h; exact h
  | cons x xs ih =>
    intro p hm h
    obtain ⟨h1, h2, h3⟩ := h
    refine ⟨h1, h2, ?_⟩
    rw [← loadNext_congr m1 m2 x (hm x (List.mem_cons_self x xs))]
    exact ih _ (fun y hy => hm y (List.mem_cons_of_mem x hy)) h3

/-- The bytes of the link word of an aligned frame other than `v` are not
touched by scrubbing frame `v`. -/
theorem memset_other (m : Nat → Nat) (v x j : Nat) (hv : v % PGSIZE = 0)
    (hx : x % PGSIZE = 0) (hne : x ≠ v) (hj : j < 4) :
    memset m v 1 PGSIZE (x + j) = m (x + j) := by
  simp only [PGSIZE] at *
  have hn : ¬ (v ≤ x + j ∧ x + j < v + 4096) := by omega
  simp only [memset, PGSIZE, if_neg hn]

/-- The bytes of the link word of an aligned frame other than `v` are not
touched by writing the link word of frame `v`. -/
theorem storeNext_other (m : Nat → Nat) (v w x j : Nat) (hv : v % PGSIZE = 0)
    (hx : x % PGSIZE = 0) (hne : x ≠ v) (hj : j < 4) :
    storeNext m v w (x + j) = m (x + j) := by
  simp only [PGSIZE] at *
  have h0 : ¬ (x + j = v) := by omega
  have h1 : ¬ (x + j = v + 1) := by omega
  have h2 : ¬ (x + j = v + 2) := by omega
  have h3 : ¬ (x + j = v + 3) := by omega
  simp only [storeNext, if_neg h0, if_neg h1, if_neg h2, if_neg h3]

theorem FreeChain_head (m : Nat → Nat) (p : Nat) (l : List Nat) (hp : p ≠ 0)
    (h : FreeChain m p l) : l = p :: l.tail ∧ FreeChain m (loadNext m p) l.tail := by
  cases l with
  | nil => exact absurd h hp
  | cons x xs =>
    obtain ⟨h1, _, h3⟩ := h
    subst h1
    exact ⟨rfl, h3⟩

theorem push_chain (m : Nat → Nat) (v w : Nat) (l : List Nat) (hal : v % PGSIZE = 0)
    (hv0 : v ≠ 0) (hw : w < 2 ^ 32) (hl : FreeChain m w l)
    (hx : ∀ x ∈ l, x % PGSIZE = 0 ∧ x ≠ v) :
    FreeChain (storeNext (memset (memset m v 1 PGSIZE) v 1 PGSIZE) v w) v (v :: l) := by
  refine ⟨rfl, hv0, ?_⟩
  rw [loadNext_storeNext _ v w hw]
  refine FreeChain_congr m _ l _ (fun x hxl j hj => ?_) hl
  rw [storeNext_other _ v _ x j hal (hx x hxl).1 (hx x hxl).2 hj,
    memset_other _ v x j hal (hx x hxl).1 (hx x hxl).2 hj,
    memset_other _ v x j hal (hx x hxl).1 (hx x hxl).2 hj]

theorem scrub_chain (m : Nat → Nat) (v w : Nat) (l : List Nat) (hal : v % PGSIZE = 0)
    (hl : FreeChain m w l) (hx : ∀ x ∈ l, x % PGSIZE = 0 ∧ x ≠ v) :
    FreeChain (memset m v 1 PGSIZE) w l := by
  refine FreeChain_congr m _ l _ (fun x hxl j hj => ?_) hl
  exact (memset_other m v x j hal (hx x hxl).1 (hx x hxl).2 hj).symm

theorem FreeChain_ne_zero (m : Nat → Nat) (l : List Nat) :
    ∀ p, FreeChain m p l → ∀ x ∈ l, x ≠ 0 := by
  induction l with
  | nil => intro p _ x hx; cases hx
  | cons y ys ih =>
    intro p h x hx
    obtain ⟨_, h2, h3⟩ := h
    rcases List.mem_cons.1 hx with rfl | hx2
    · exact h2
    · exact ih _ h3 x hx2

theorem walk_zero (m : Nat → Nat) (k : Nat) : walk m 0 k = 0 := by
  cases k <;> simp [walk]

theorem walk_chain (m : Nat → Nat) (l : List Nat) :
    ∀ p k, FreeChain m p l → walk m p k = l.getD k 0 := by
  induction l with
  | nil =>
    intro p k h
    have hp : p = 0 := h
    subst hp
    simp [walk_zero]
  | cons x xs ih =>
    intro p k h
    obtain ⟨h1, h2, h3⟩ := h
    subst h1
    cases k with
    | zero => simp [walk]
    | succ k =>
      simp only [walk, if_neg h2, List.getD_cons_succ]
      exact ih _ k h3

/-- On a well-formed list the frames reached by walking are its members. -/
theorem onFreeList_iff_mem (s : State) (l : List Nat)
    (h : FreeChain s.mem s.freelist l) (a : Nat) : onFreeList s a ↔ a ∈ l := by
  constructor
  · rintro ⟨ha, k, hk⟩
    rw [walk_chain s.mem l _ k h] at hk
    by_cases hlt : k < l.length
    · rw [List.getD_eq_getElem _ _ hlt] at hk
      rw [← hk]
      exact List.getElem_mem hlt
    · rw [List.getD_eq_default _ _ (by omega)] at hk
      exact absurd hk.symm ha
  · intro ha
    refine ⟨FreeChain_ne_zero s.mem l _ h a ha, ?_⟩
    obtain ⟨k, hk, hka⟩ := List.getElem_of_mem ha
    refine ⟨k, ?_⟩
    rw [walk_chain s.mem l _ k h, List.getD_eq_getElem _ _ hk, hka]

/-! ## Facts about `kinit` -/

theorem kinitLoop_done (L : Layout) (p : Nat) (s : State) (h : ¬ p + PGSIZE ≤ L.PHYSTOP) :
    kinitLoop L p s = .ok () s := by
  rw [kinitLoop]
  simp only [if_neg h]

theorem kinitLoop_next (L : Layout) (p : Nat) (s t : State) (h : p + PGSIZE ≤ L.PHYSTOP)
    (hk : kfree L s p = .ok () t) :
    kinitLoop L p s = kinitLoop L (p + PGSIZE) t := by
  rw [kinitLoop]
  simp only [if_pos h, hk]

theorem PGROUNDUP_aligned (a : Nat) : PGROUNDUP a % PGSIZE = 0 := by
  simp [PGROUNDUP]

theorem PGROUNDUP_ge (a : Nat) : a ≤ PGROUNDUP a := by
  simp only [PGROUNDUP, PGSIZE]
  omega

theorem mem_framesDesc (start n x : Nat) :
    x ∈ framesDesc start n ↔ ∃ i, i < n ∧ x = start + i * PGSIZE := by
  induction n with
  | zero => simp [framesDesc]
  | succ n ih =>
    simp only [framesDesc, List.mem_cons, ih]
    constructor
    · rintro (h | ⟨i, hi, hx⟩)
      · exact ⟨n, by omega, h⟩
      · exact ⟨i, by omega, hx⟩
    · rintro ⟨i, hi, hx⟩
      by_cases hin : i = n
      · left; rw [hx, hin]
      · right; exact ⟨i, by omega, hx⟩

theorem framesDesc_length (start n : Nat) : (framesDesc start n).length = n := by
  induction n with
  | zero => rfl
  | succ n ih => simp [framesDesc, ih]

theorem framesDesc_pairwise (start n : Nat) :
    (framesDesc start n).Pairwise (fun a b => b < a) := by
  induction n with
  | zero => exact List.Pairwise.nil
  | succ n ih =>
    refine List.Pairwise.cons (fun b hb => ?_) ih
    obtain ⟨i, hi, hx⟩ := (mem_framesDesc start n b).1 hb
    simp only [PGSIZE] at *
    omega

theorem framesDesc_nodup (start n : Nat) : (framesDesc start n).Nodup := by
  refine List.Pairwise.imp ?_ (framesDesc_pairwise start n)
  intro a b hab
  omega

/-- The frames of `framesDesc` over the allocatable range are exactly the
aligned addresses `p` with `PGROUNDUP(end) ≤ p` and `p + 4096 ≤ PHYSTOP`. -/
theorem mem_framesDesc_range (L : Layout) (x : Nat) :
    x ∈ framesDesc (PGROUNDUP L.kend) (frameCount L) ↔ isFrame L x := by
  have hst := PGROUNDUP_aligned L.kend
  rw [mem_framesDesc]
  simp only [isFrame, frameCount, PGSIZE] at *
  constructor
  · rintro ⟨i, hi, hx⟩
    omega
  · rintro ⟨h1, h2, h3⟩
    refine ⟨(x - PGROUNDUP L.kend) / 4096, ?_, ?_⟩
    · omega
    · omega

theorem kinitLoop_seeds (L : Layout) (hL : L.ok) :
    ∀ d k s, k + d = frameCount L → Seeded L s k →
      ∃ t, kinitLoop L (PGROUNDUP L.kend + k * PGSIZE) s = .ok () t ∧
        Seeded L t (frameCount L) := by
  have hst := PGROUNDUP_aligned L.kend
  have hge := PGROUNDUP_ge L.kend
  obtain ⟨hk0, hP⟩ := layout_ok_bounds L hL
  intro d
  induction d with
  | zero =>
    intro k s hk hs
    refine ⟨s, kinitLoop_done L _ s ?_, ?_⟩
    · simp only [frameCount, PGSIZE] at *
      omega
    · have hkN : k = frameCount L := by omega
      rw [← hkN]
      exact hs
  | succ d ih =>
    intro k s hk hs
    obtain ⟨hch, hfp, hrc, hfl⟩ := hs
    have hle : PGROUNDUP L.kend + k * PGSIZE + PGSIZE ≤ L.PHYSTOP := by
      simp only [frameCount, PGSIZE] at *
      omega
    have hacc : kfreeAccepts L (PGROUNDUP L.kend + k * PGSIZE) := by
      simp only [kfreeAccepts, PGSIZE] at *
      omega
    have hpush := kfree_push_eq L s _ hacc (by rw [hrc]; omega)
    rw [kinitLoop_next L _ s _ hle hpush]
    have hstep : PGROUNDUP L.kend + k * PGSIZE + PGSIZE = PGROUNDUP L.kend + (k + 1) * PGSIZE := by
      ring
    rw [hstep]
    refine ih (k + 1) _ (by omega) ⟨?_, ?_, ?_, ?_⟩
    · refine push_chain s.mem _ s.freelist _ hacc.1 ?_ hfl hch ?_
      · simp only [PGSIZE] at *
        omega
      · intro x hx
        obtain ⟨i, hi, hxi⟩ := (mem_framesDesc _ k x).1 hx
        simp only [PGSIZE] at *
        omega
    · show (s.free_pages + 1) % 2 ^ 32 = k + 1
      simp only [frameCount, PGSIZE] at *
      omega
    · intro i
      show Function.update s.ref_cnt _ 0 i = 0
      by_cases hi : i = (PGROUNDUP L.kend + k * PGSIZE) / 4096
      · rw [hi, Function.update_same]
      · rw [Function.update_noteq hi, hrc]
    · show PGROUNDUP L.kend + k * PGSIZE < 2 ^ 32
      simp only [PGSIZE] at *
      omega

/-- On the zero-initialised pool `kinit` returns, with every frame of the range
on the free list (highest address first), the counter equal to their number
and all reference counts 0. -/
theorem kinit_seeds (L : Layout) (hL : L.ok) (m0 : Nat → Nat) :
    ∃ t, kinit L (boot m0) = .ok () t ∧ Seeded L t (frameCount L) := by
  have h := kinitLoop_seeds L hL (frameCount L) 0 (boot m0) (by omega)
    ⟨rfl, rfl, fun _ => rfl, by simp [boot]⟩
  simpa [kinit] using h

theorem frameCount_le (L : Layout) (hL : L.ok) : frameCount L ≤ 2 ^ 20 := by
  obtain ⟨_, hP⟩ := layout_ok_bounds L hL
  simp only [frameCount, PGSIZE]
  omega

theorem toInt32_small (n : Nat) (h : n < 2 ^ 31) : toInt32 n = (n : Int) := by
  have h1 : n % 2 ^ 32 = n := Nat.mod_eq_of_lt (by omega)
  simp only [toInt32, h1, if_pos h]

theorem kalloc_eq_of_ne (s : State) (h : s.freelist ≠ 0) :
    kalloc s = (s.freelist, { s with
      freelist := loadNext s.mem s.freelist
      ref_cnt := Function.update s.ref_cnt (s.freelist / 4096) 1
      free_pages := (s.free_pages + (2 ^ 32 - 1)) % 2 ^ 32 }) := by
  simp only [kalloc, if_pos h, PADDR, shift_eq_div]

theorem kalloc_eq_of_null (s : State) (h : s.freelist = 0) : kalloc s = (0, s) := by
  simp [kalloc, h]

/-- Calling `kalloc` as many times as the free list is long returns its nodes
in list order and empties it. -/
theorem kallocN_chain (l : List Nat) :
    ∀ s : State, FreeChain s.mem s.freelist l → l.length ≤ s.free_pages →
      s.free_pages < 2 ^ 32 →
      (kallocN l.length s).1 = l ∧ (kallocN l.length s).2.freelist = 0 ∧
        (kallocN l.length s).2.free_pages = s.free_pages - l.length := by
  induction l with
  | nil =>
    intro s h _ _
    exact ⟨rfl, h, rfl⟩
  | cons x xs ih =>
    intro s h hlen hlt
    obtain ⟨h1, h2, h3⟩ := h
    have hne : s.freelist ≠ 0 := by rw [h1]; exact h2
    simp only [List.length_cons] at hlen
    simp only [List.length_cons, kallocN, kalloc_eq_of_ne s hne]
    have hfp : (s.free_pages + (2 ^ 32 - 1)) % 2 ^ 32 = s.free_pages - 1 := by omega
    have hrec := ih { s with
      freelist := loadNext s.mem s.freelist
      ref_cnt := Function.update s.ref_cnt (s.freelist / 4096) 1
      free_pages := (s.free_pages + (2 ^ 32 - 1)) % 2 ^ 32 }
      (by rw [h1]; exact h3)
      (by show xs.length ≤ (s.free_pages + (2 ^ 32 - 1)) % 2 ^ 32; omega)
      (by show (s.free_pages + (2 ^ 32 - 1)) % 2 ^ 32 < 2 ^ 32; omega)
    obtain ⟨r1, r2, r3⟩ := hrec
    refine ⟨?_, r2, ?_⟩
    · rw [r1, h1]
    · rw [r3]
      show (s.free_pages + (2 ^ 32 - 1)) % 2 ^ 32 - xs.length = _
      omega

/-! ## The list invariant and its preservation -/

theorem nodup_length_le (L : Layout) (hL : L.ok) (l : List Nat) (hnd : l.Nodup)
    (hacc : ∀ x ∈ l, kfreeAccepts L x) : l.length ≤ 2 ^ 20 := by
  obtain ⟨_, hP⟩ := layout_ok_bounds L hL
  have hmap : (l.map (fun x => x / 4096)).Nodup := by
    refine List.Nodup.map_on (fun x hx y hy hxy => ?_) hnd
    have h1 := (hacc x hx).1
    have h2 := (hacc y hy).1
    simp only [PGSIZE] at h1 h2
    omega
  have hsub : (l.map (fun x => x / 4096)).toFinset ⊆ Finset.range (2 ^ 20) := by
    intro i hi
    simp only [List.mem_toFinset, List.mem_map] at hi
    obtain ⟨x, hx, hxi⟩ := hi
    have h3 := (hacc x hx).2.2
    simp only [Finset.mem_range]
    omega
  have hcard := Finset.card_le_card hsub
  rw [List.toFinset_card_of_nodup hmap, Finset.card_range, List.length_map] at hcard
  exact hcard

theorem listInv_head_lt (L : Layout) (hL : L.ok) (s : State) (l : List Nat)
    (h : ListInv L s l) : s.freelist < 2 ^ 32 := by
  obtain ⟨hch, _, hacc, _⟩ := h
  cases l with
  | nil =>
    have h0 : s.freelist = 0 := hch
    omega
  | cons x xs =>
    have h1 : s.freelist = x := hch.1
    have h3 := (hacc x (List.mem_cons_self x xs)).2.2
    have hP := (layout_ok_bounds L hL).2
    omega

theorem outcome_ok_of_not_panic (o : Outcome Unit) (h : o.isPanic = false) :
    o = .ok () o.state := by
  cases o with
  | ok val s => rfl
  | panic msg s => simp [Outcome.isPanic] at h

theorem outcome_not_panic_of_ok (o : Outcome Unit) (t : State) (h : o = .ok () t) :
    o.isPanic = false ∧ o.state = t := by
  subst h
  exact ⟨rfl, rfl⟩

/-- After `kalloc` the list invariant holds for the tail. -/
theorem listInv_kalloc (L : Layout) (hL : L.ok) (s : State) (l : List Nat)
    (h : ListInv L s l) :
    ListInv L (kalloc s).2 l.tail ∧ (kalloc s).1 = l.headD 0 ∧
      (kalloc s).2.ref_cnt =
        (if l = [] then s.ref_cnt else Function.update s.ref_cnt (l.headD 0 / 4096) 1) := by
  have hlen := nodup_length_le L hL l h.2.1 h.2.2.1
  obtain ⟨hch, hnd, hacc, hfp⟩ := h
  cases l with
  | nil =>
    have h0 : s.freelist = 0 := hch
    rw [kalloc_eq_of_null s h0]
    exact ⟨⟨hch, hnd, hacc, hfp⟩, rfl, rfl⟩
  | cons x xs =>
    obtain ⟨h1, h2, h3⟩ := hch
    have hne : s.freelist ≠ 0 := by rw [h1]; exact h2
    rw [kalloc_eq_of_ne s hne]
    simp only [List.length_cons] at hfp hlen
    refine ⟨⟨?_, (List.nodup_cons.1 hnd).2, fun y hy => hacc y (List.mem_cons_of_mem x hy), ?_⟩,
      h1, ?_⟩
    · show FreeChain s.mem (loadNext s.mem s.freelist) xs
      rw [h1]
      exact h3
    · show (s.free_pages + (2 ^ 32 - 1)) % 2 ^ 32 = xs.length
      omega
    · show Function.update s.ref_cnt (s.freelist / 4096) 1 = _
      rw [h1]
      rfl

/-- After an accepted `kfree` of a frame that is not on the list, the list
invariant holds for the same list (frame still shared) or for the list with
the frame pushed in front (count at most 1 before the call). -/
theorem listInv_kfree (L : Layout) (hL : L.ok) (s : State) (l : List Nat)
    (h : ListInv L s l) (v : Nat) (hacc : kfreeAccepts L v) (hv : v ∉ l) :
    (2 ≤ s.ref_cnt (v / 4096) ∧ ListInv L (kfree L s v).state l ∧
      (kfree L s v).state.ref_cnt =
        Function.update s.ref_cnt (v / 4096) (s.ref_cnt (v / 4096) - 1)) ∨
    (s.ref_cnt (v / 4096) ≤ 1 ∧ ListInv L (kfree L s v).state (v :: l) ∧
      (kfree L s v).state.ref_cnt = Function.update s.ref_cnt (v / 4096) 0) := by
  have hhead := listInv_head_lt L hL s l h
  obtain ⟨hch, hnd, hal, hfp⟩ := h
  have hx : ∀ x ∈ l, x % PGSIZE = 0 ∧ x ≠ v := fun x hxl =>
    ⟨(hal x hxl).1, fun hxv => hv (hxv ▸ hxl)⟩
  by_cases hc : 2 ≤ s.ref_cnt (v / 4096)
  · left
    rw [kfree_share_eq L s v hacc hc]
    exact ⟨hc, ⟨scrub_chain s.mem v s.freelist l hacc.1 hch hx, hnd, hal, hfp⟩, rfl⟩
  · right
    have hc1 : s.ref_cnt (v / 4096) ≤ 1 := by omega
    rw [kfree_push_eq L s v hacc hc1]
    have hnd2 : (v :: l).Nodup := List.nodup_cons.2 ⟨hv, hnd⟩
    have hal2 : ∀ x ∈ v :: l, kfreeAccepts L x := by
      intro x hxm
      rcases List.mem_cons.1 hxm with rfl | hxl
      · exact hacc
      · exact hal x hxl
    have hlen := nodup_length_le L hL (v :: l) hnd2 hal2
    have hv0 : v ≠ 0 := by
      have := hacc.2.1
      have := (layout_ok_bounds L hL).1
      omega
    refine ⟨hc1, ⟨push_chain s.mem v s.freelist l hacc.1 hv0 hhead hch hx, hnd2, hal2, ?_⟩, rfl⟩
    show (s.free_pages + 1) % 2 ^ 32 = (v :: l).length
    simp only [List.length_cons] at hlen ⊢
    omega

theorem inc_refCount_ok (L : Layout) (s t : State) (pa : Nat)
    (h : inc_refCount L s pa = .ok () t) :
    (L.kend ≤ pa ∧ pa < L.PHYSTOP) ∧
      t = { s with
        ref_cnt := Function.update s.ref_cnt (pa / 4096)
          ((s.ref_cnt (pa / 4096) + 1) % 2 ^ 32) } := by
  unfold inc_refCount at h
  split_ifs at h with hc
  simp only [PADDR, shift_eq_div, Outcome.ok.injEq, true_and] at h hc
  exact ⟨by omega, h.symm⟩

theorem dec_refCount_ok (L : Layout) (s t : State) (pa : Nat)
    (h : dec_refCount L s pa = .ok () t) :
    (L.kend ≤ pa ∧ pa < L.PHYSTOP) ∧
      t = { s with
        ref_cnt := Function.update s.ref_cnt (pa / 4096)
          ((s.ref_cnt (pa / 4096) + (2 ^ 32 - 1)) % 2 ^ 32) } := by
  unfold dec_refCount at h
  split_ifs at h with hc
  simp only [PADDR, shift_eq_div, Outcome.ok.injEq, true_and] at h hc
  exact ⟨by omega, h.symm⟩

theorem kfree_ok (L : Layout) (s t : State) (v : Nat) (h : kfree L s v = .ok () t) :
    kfreeAccepts L v ∧ (kfree L s v).state = t := by
  obtain ⟨h1, h2⟩ := outcome_not_panic_of_ok _ t h
  exact ⟨(kfree_accepts_iff L s v).1 h1, h2⟩

theorem seeded_listInv (L : Layout) (t : State) (h : Seeded L t (frameCount L)) :
    ListInv L t (framesDesc (PGROUNDUP L.kend) (frameCount L)) := by
  obtain ⟨hch, hfp, _, _⟩ := h
  refine ⟨hch, framesDesc_nodup _ _, fun x hx => ?_, ?_⟩
  · have hf := (mem_framesDesc_range L x).1 hx
    have hge := PGROUNDUP_ge L.kend
    simp only [isFrame, kfreeAccepts, PGSIZE] at *
    omega
  · rw [hfp, framesDesc_length]

theorem div_ne_of_aligned (x v : Nat) (hx : x % PGSIZE = 0) (hv : v % PGSIZE = 0)
    (h : x ≠ v) : x / 4096 ≠ v / 4096 := by
  simp only [PGSIZE] at hx hv
  omega

theorem kinit_ok_seeded (L : Layout) (hL : L.ok) (m0 : Nat → Nat) (t : State)
    (ht : kinit L (boot m0) = .ok () t) : Seeded L t (frameCount L) := by
  obtain ⟨u, hu, hs⟩ := kinit_seeds L hL m0
  rw [ht] at hu
  injection hu with _ htu
  rw [htu]
  exact hs

/-- When `kfree` is never applied to a frame that is on the free list, the free
list stays a duplicate-free chain whose length is the free-page counter. -/
theorem reach_freeOffList_inv (L : Layout) (hL : L.ok) (s : State) (g : Nat → Bool)
    (h : ReachH L freeOffList s g) : ∃ l, ListInv L s l := by
  induction h with
  | init m0 t ht => exact ⟨_, seeded_listInv L t (kinit_ok_seeded L hL m0 t ht)⟩
  | call s g op t _ hG hstep ih =>
    obtain ⟨l, hl⟩ := ih
    cases op with
    | alloc =>
      simp only [step] at hstep
      injection hstep with _ ht
      subst ht
      exact ⟨l.tail, (listInv_kalloc L hL s l hl).1⟩
    | free v =>
      simp only [step] at hstep
      obtain ⟨hacc, ht⟩ := kfree_ok L s t v hstep
      have hv : v ∉ l := fun hm => hG ((onFreeList_iff_mem s l hl.1 v).2 hm)
      subst ht
      rcases listInv_kfree L hL s l hl v hacc hv with ⟨_, h2, _⟩ | ⟨_, h2, _⟩
      · exact ⟨l, h2⟩
      · exact ⟨v :: l, h2⟩
    | inc pa =>
      simp only [step] at hstep
      obtain ⟨_, ht⟩ := inc_refCount_ok L s t pa hstep
      subst ht
      exact ⟨l, hl⟩
    | dec pa =>
      simp only [step] at hstep
      obtain ⟨_, ht⟩ := dec_refCount_ok L s t pa hstep
      subst ht
      exact ⟨l, hl⟩

theorem listInv_counterMatches (L : Layout) (hL : L.ok) (s : State) (l : List Nat)
    (h : ListInv L s l) : CounterMatches s := by
  have hlen := nodup_length_le L hL l h.2.1 h.2.2.1
  refine ⟨l, h.2.1, fun a => (onFreeList_iff_mem s l h.1 a).symm, ?_⟩
  simp only [getFreePagesCount, h.2.2.2]
  exact toInt32_small _ (by omega)

/-- Under the held-frames discipline the free list stays a duplicate-free
chain of frames whose reference counts are all 0. -/
theorem reach_heldOnly_inv (L : Layout) (hL : L.ok) (s : State) (g : Nat → Bool)
    (h : ReachH L heldOnly s g) :
    ∃ l, ListInv L s l ∧ ∀ x ∈ l, s.ref_cnt (x / 4096) = 0 := by
  induction h with
  | init m0 t ht =>
    have hs := kinit_ok_seeded L hL m0 t ht
    exact ⟨_, seeded_listInv L t hs, fun x _ => hs.2.2.1 _⟩
  | call s g op t _ hG hstep ih =>
    obtain ⟨l, hl, hz⟩ := ih
    cases op with
    | alloc =>
      simp only [step] at hstep
      injection hstep with _ ht
      subst ht
      obtain ⟨h1, h2, h3⟩ := listInv_kalloc L hL s l hl
      refine ⟨l.tail, h1, fun x hx => ?_⟩
      rw [h3]
      cases l with
      | nil => cases hx
      | cons y ys =>
        simp only [List.tail_cons] at hx
        have hne : x ≠ y := fun hxy => (List.nodup_cons.1 hl.2.1).1 (hxy ▸ hx)
        have hd := div_ne_of_aligned x y (hl.2.2.1 x (List.mem_cons_of_mem y hx)).1
          (hl.2.2.1 y (List.mem_cons_self y ys)).1 hne
        simp only [reduceCtorEq, if_false, List.headD_cons]
        rw [Function.update_noteq hd]
        exact hz x (List.mem_cons_of_mem y hx)
    | free v =>
      simp only [step] at hstep
      obtain ⟨hacc, ht⟩ := kfree_ok L s t v hstep
      have hG2 : 1 ≤ s.ref_cnt (v / 4096) := by
        have hG1 : 1 ≤ s.ref_cnt (PADDR v >>> PGSHIFT) := hG
        rwa [PADDR, shift_eq_div] at hG1
      have hv : v ∉ l := fun hm => by
        have := hz v hm
        omega
      subst ht
      have hd : ∀ x ∈ l, x / 4096 ≠ v / 4096 := fun x hx =>
        div_ne_of_aligned x v (hl.2.2.1 x hx).1 hacc.1 (fun hxv => hv (hxv ▸ hx))
      rcases listInv_kfree L hL s l hl v hacc hv with ⟨_, h2, h3⟩ | ⟨_, h2, h3⟩
      · refine ⟨l, h2, fun x hx => ?_⟩
        rw [h3, Function.update_noteq (hd x hx)]
        exact hz x hx
      · refine ⟨v :: l, h2, fun x hx => ?_⟩
        rw [h3]
        rcases List.mem_cons.1 hx with rfl | hxl
        · rw [Function.update_same]
        · rw [Function.update_noteq (hd x hxl)]
          exact hz x hxl
    | inc pa =>
      simp only [step] at hstep
      obtain ⟨_, ht⟩ := inc_refCount_ok L s t pa hstep
      have hG2 : 1 ≤ s.ref_cnt (pa / 4096) := by
        have hG1 : 1 ≤ s.ref_cnt (pa >>> PGSHIFT) := hG
        rwa [shift_eq_div] at hG1
      subst ht
      refine ⟨l, hl, fun x hx => ?_⟩
      have hne : x / 4096 ≠ pa / 4096 := fun he => by
        have := hz x hx
        rw [he] at this
        omega
      show Function.update s.ref_cnt (pa / 4096) _ (x / 4096) = 0
      rw [Function.update_noteq hne]
      exact hz x hx
    | dec pa =>
      simp only [step] at hstep
      obtain ⟨_, ht⟩ := dec_refCount_ok L s t pa hstep
      have hG2 : 1 ≤ s.ref_cnt (pa / 4096) := by
        have hG1 : 1 ≤ s.ref_cnt (pa >>> PGSHIFT) := hG
        rwa [shift_eq_div] at hG1
      subst ht
      refine ⟨l, hl, fun x hx => ?_⟩
      have hne : x / 4096 ≠ pa / 4096 := fun he => by
        have := hz x hx
        rw [he] at this
        omega
      show Function.update s.ref_cnt (pa / 4096) _ (x / 4096) = 0
      rw [Function.update_noteq hne]
      exact hz x hx

/-- C1: when the free list is non-empty, `kalloc` returns the address at the
head of the list, the new list is the old one without its head (the head
pointer becomes the `next` link of the old head and memory is untouched), the
reference count of the returned frame is exactly 1, the free-page counter is
the old value minus 1 (in `uint` arithmetic), and every other reference count
is unchanged. -/
theorem kalloc_pops_head (s : State) (h : s.freelist ≠ 0) :
    (kalloc s).1 = s.freelist ∧
    (kalloc s).2.freelist = loadNext s.mem s.freelist ∧
    (kalloc s).2.mem = s.mem ∧
    (∀ l, FreeChain s.mem s.freelist l →
      l = s.freelist :: l.tail ∧ FreeChain (kalloc s).2.mem (kalloc s).2.freelist l.tail) ∧
    (kalloc s).2.ref_cnt (PADDR (kalloc s).1 >>> PGSHIFT) = 1 ∧
    (kalloc s).2.free_pages = (s.free_pages + (2 ^ 32 - 1)) % 2 ^ 32 ∧
    (0 < s.free_pages → s.free_pages < 2 ^ 32 →
      (kalloc s).2.free_pages = s.free_pages - 1) ∧
    (∀ i, i ≠ PADDR (kalloc s).1 >>> PGSHIFT → (kalloc s).2.ref_cnt i = s.ref_cnt i) := by
  simp only [kalloc, if_pos h, Function.update_same, true_and]
  refine ⟨fun l hl => FreeChain_head s.mem s.freelist l h hl, ?_, ?_⟩
  · intro h1 h2
    omega
  · intro i hi
    exact Function.update_noteq hi _ _

/-- Instance of C1 at a state with the single free frame 8192. -/
theorem kalloc_pops_head_witness :
    demoState.freelist ≠ 0 ∧ (kalloc demoState).1 = 8192 ∧
      (kalloc demoState).2.ref_cnt 2 = 1 ∧ (kalloc demoState).2.free_pages = 0 := by
  have h := kalloc_pops_head demoState (by decide)
  refine ⟨by decide, h.1, ?_, ?_⟩
  · have h5 := h.2.2.2.2.1
    rw [h.1] at h5
    exact h5
  · exact h.2.2.2.2.2.1

/-- C3: when the free list is empty, `kalloc` returns 0 and leaves the whole
state (free list, free-page counter, reference counts, memory) unchanged;
`kalloc` has no panic path. -/
theorem kalloc_empty (s : State) (h : s.freelist = 0) :
    (kalloc s).1 = 0 ∧ (kalloc s).2 = s := by
  have hn : ¬ (s.freelist ≠ 0) := by simp [h]
  simp only [kalloc, if_neg hn, and_true]
  exact h

/-- Instance of C3 at the zero-initialised pool. -/
theorem kalloc_empty_witness :
    (boot (fun _ => 0)).freelist = 0 ∧
      (kalloc (boot (fun _ => 0))).1 = 0 ∧ (kalloc (boot (fun _ => 0))).2 = boot (fun _ => 0) :=
  ⟨rfl, kalloc_empty (boot (fun _ => 0)) rfl⟩

/-- C4: `kfree(v)` panics if and only if `v` is not a multiple of 4096, or is
below the allocatable start `PGROUNDUP(end)`, or is at or above `PHYSTOP`;
equivalently it accepts exactly the frame-aligned addresses of
`[PGROUNDUP(end), PHYSTOP)`.  The address one byte below the allocatable start
panics.  On the panic path the whole state, memory included, is unchanged. -/
theorem kfree_panic_iff (L : Layout) (s : State) (v : Nat) :
    ((kfree L s v).isPanic = true ↔
      (v % 4096 ≠ 0 ∨ v < PGROUNDUP L.kend ∨ L.PHYSTOP ≤ v)) ∧
    ((kfree L s v).isPanic = false ↔
      (v % 4096 = 0 ∧ PGROUNDUP L.kend ≤ v ∧ v < L.PHYSTOP)) ∧
    (kfree L s ((PGROUNDUP L.kend + (2 ^ 32 - 1)) % 2 ^ 32)).isPanic = true ∧
    (0 < L.kend → (kfree L s (PGROUNDUP L.kend - 1)).isPanic = true) ∧
    ((kfree L s v).isPanic = true → (kfree L s v).state = s) := by
  have hiff := kfree_isPanic_iff L s v
  have hacc := kfree_accepts_iff L s v
  simp only [kfreeAccepts, PGSIZE] at hiff hacc
  refine ⟨?_, ?_, ?_, ?_, ?_⟩
  · rw [hiff]
    simp only [PGROUNDUP, PGSIZE]
    omega
  · rw [hacc]
    simp only [PGROUNDUP, PGSIZE]
    omega
  · rw [kfree_isPanic_iff]
    left
    simp only [PGROUNDUP, PGSIZE]
    omega
  · intro hk
    rw [kfree_isPanic_iff]
    left
    simp only [PGROUNDUP, PGSIZE]
    omega
  · intro hp
    rw [kfree_panic_eq L s v ((kfree_isPanic_iff L s v).1 hp)]
    rfl

/-- C5, as the code has it: each of `inc_refCount`, `dec_refCount` and
`get_refCount` panics exactly when `pa ≥ PHYSTOP` or `pa < end`, leaving the
state unchanged; every address of `[end, PHYSTOP)`, aligned or not, is
accepted. -/
theorem refcount_ops_panic_iff (L : Layout) (s : State) (pa : Nat) :
    ((inc_refCount L s pa).isPanic = true ↔ (L.PHYSTOP ≤ pa ∨ pa < L.kend)) ∧
    ((dec_refCount L s pa).isPanic = true ↔ (L.PHYSTOP ≤ pa ∨ pa < L.kend)) ∧
    ((get_refCount L s pa).isPanic = true ↔ (L.PHYSTOP ≤ pa ∨ pa < L.kend)) ∧
    ((inc_refCount L s pa).isPanic = true → (inc_refCount L s pa).state = s) ∧
    ((dec_refCount L s pa).isPanic = true → (dec_refCount L s pa).state = s) ∧
    ((get_refCount L s pa).isPanic = true → (get_refCount L s pa).state = s) := by
  by_cases h : pa ≥ L.PHYSTOP ∨ pa < PADDR L.kend
  · have h2 : L.PHYSTOP ≤ pa ∨ pa < L.kend := h
    simp only [inc_refCount, dec_refCount, get_refCount, if_pos h, Outcome.isPanic,
      Outcome.state, h2, and_self, imp_self]
  · have h2 : ¬ (L.PHYSTOP ≤ pa ∨ pa < L.kend) := h
    simp only [inc_refCount, dec_refCount, get_refCount, if_neg h, Outcome.isPanic,
      Outcome.state, h2, Bool.false_eq_true, false_imp_iff, and_self]

/-- C5 fails as stated: in the demo layout the misaligned address 4097 is
accepted by all three reference-count operations. -/
theorem refcount_ops_accept_misaligned :
    4097 % 4096 ≠ 0 ∧
    (inc_refCount demoLayout (boot (fun _ => 0)) 4097).isPanic = false ∧
    (dec_refCount demoLayout (boot (fun _ => 0)) 4097).isPanic = false ∧
    (get_refCount demoLayout (boot (fun _ => 0)) 4097).isPanic = false := by
  refine ⟨by decide, ?_, ?_, ?_⟩ <;> decide

/-! ## Initialisation -/

/-- C6: starting from the zero-initialised pool, `kinit` returns and leaves a
free list that holds each frame-aligned address `p` with
`PGROUNDUP(end) ≤ p` and `p + 4096 ≤ PHYSTOP` exactly once and nothing else,
highest address at the head; `getFreePagesCount` is the number of these
frames; every reference count is 0. -/
theorem kinit_builds_free_list (L : Layout) (hL : L.ok) (m0 : Nat → Nat) :
    ∃ t, kinit L (boot m0) = .ok () t ∧
      FreeChain t.mem t.freelist (framesDesc (PGROUNDUP L.kend) (frameCount L)) ∧
      (∀ p, p ∈ framesDesc (PGROUNDUP L.kend) (frameCount L) ↔
        (p % 4096 = 0 ∧ PGROUNDUP L.kend ≤ p ∧ p + 4096 ≤ L.PHYSTOP)) ∧
      (∀ p, onFreeList t p ↔
        (p % 4096 = 0 ∧ PGROUNDUP L.kend ≤ p ∧ p + 4096 ≤ L.PHYSTOP)) ∧
      (framesDesc (PGROUNDUP L.kend) (frameCount L)).Nodup ∧
      (framesDesc (PGROUNDUP L.kend) (frameCount L)).Pairwise (fun a b => b < a) ∧
      (framesDesc (PGROUNDUP L.kend) (frameCount L)).length = frameCount L ∧
      (getFreePagesCount t).1 = (frameCount L : Int) ∧
      (∀ i, t.ref_cnt i = 0) := by
  obtain ⟨t, ht, hch, hfp, hrc, _⟩ := kinit_seeds L hL m0
  have hmem : ∀ p, p ∈ framesDesc (PGROUNDUP L.kend) (frameCount L) ↔
      (p % 4096 = 0 ∧ PGROUNDUP L.kend ≤ p ∧ p + 4096 ≤ L.PHYSTOP) :=
    fun p => mem_framesDesc_range L p
  refine ⟨t, ht, hch, hmem, ?_, framesDesc_nodup _ _, framesDesc_pairwise _ _,
    framesDesc_length _ _, ?_, hrc⟩
  · intro p
    rw [onFreeList_iff_mem t _ hch p]
    exact hmem p
  · have hN := frameCount_le L hL
    simp only [getFreePagesCount, hfp]
    exact toInt32_small _ (by omega)

/-- Instance of C6 for a range of exactly 3 frames. -/
theorem kinit_builds_free_list_witness :
    demoLayout.ok ∧ frameCount demoLayout = 3 ∧
      ∃ t, kinit demoLayout (boot (fun _ => 0)) = .ok () t ∧
        (getFreePagesCount t).1 = 3 ∧ (∀ i, t.ref_cnt i = 0) := by
  have hok : demoLayout.ok := by decide
  have hn : frameCount demoLayout = 3 := by
    simp [frameCount, demoLayout, PGROUNDUP, PGSIZE]
  obtain ⟨t, ht, h⟩ := kinit_builds_free_list demoLayout hok (fun _ => 0)
  refine ⟨hok, hn, t, ht, ?_, h.2.2.2.2.2.2.2⟩
  have hc := h.2.2.2.2.2.2.1
  rw [hn] at hc
  exact hc

/-- C10: after `kinit` over a range of exactly `n` frames, `n` successive
`kalloc` calls return `n` non-zero, pairwise distinct frame addresses, each
inside the allocatable range; `getFreePagesCount` is then 0 and the next
`kalloc` returns 0. -/
theorem kinit_then_kalloc_all (L : Layout) (hL : L.ok) (m0 : Nat → Nat) (n : Nat)
    (hn : n = frameCount L) :
    ∃ t, kinit L (boot m0) = .ok () t ∧
      (kallocN n t).1.length = n ∧
      (∀ r ∈ (kallocN n t).1, r ≠ 0 ∧ isFrame L r) ∧
      (kallocN n t).1.Nodup ∧
      (getFreePagesCount (kallocN n t).2).1 = 0 ∧
      (kalloc (kallocN n t).2).1 = 0 := by
  obtain ⟨t, ht, hch, hfp, hrc, hfl⟩ := kinit_seeds L hL m0
  have hN := frameCount_le L hL
  have hlen := framesDesc_length (PGROUNDUP L.kend) (frameCount L)
  have hk := kallocN_chain _ t hch (by rw [hlen, hfp]) (by omega)
  rw [hlen] at hk
  obtain ⟨k1, k2, k3⟩ := hk
  subst hn
  refine ⟨t, ht, ?_, ?_, ?_, ?_, ?_⟩
  · rw [k1, hlen]
  · intro r hr
    rw [k1] at hr
    exact ⟨FreeChain_ne_zero t.mem _ _ hch r hr, (mem_framesDesc_range L r).1 hr⟩
  · rw [k1]
    exact framesDesc_nodup _ _
  · simp only [getFreePagesCount, k3, hfp, Nat.sub_self]
    rfl
  · rw [kalloc_eq_of_null _ k2]

/-- Instance of C10 for `n = 3`. -/
theorem kinit_then_kalloc_all_witness :
    demoLayout.ok ∧ 3 = frameCount demoLayout ∧
      ∃ t, kinit demoLayout (boot (fun _ => 0)) = .ok () t ∧
        (kallocN 3 t).1.length = 3 ∧ (kallocN 3 t).1.Nodup ∧
        (getFreePagesCount (kallocN 3 t).2).1 = 0 ∧
        (kalloc (kallocN 3 t).2).1 = 0 := by
  have hok : demoLayout.ok := by decide
  have hn : 3 = frameCount demoLayout := by
    simp [frameCount, demoLayout, PGROUNDUP, PGSIZE]
  obtain ⟨t, ht, h1, _, h3, h4, h5⟩ :=
    kinit_then_kalloc_all demoLayout hok (fun _ => 0) 3 hn
  exact ⟨hok, hn, t, ht, h1, h3, h4, h5⟩

/-! ## Invariants over call sequences -/

theorem runOps_reach (L : Layout) (G : State → Op → Prop) (ops : List Op) :
    ∀ s g, ReachH L G s g → RunOk L G s ops →
      ReachH L G (runOps L s g ops).1 (runOps L s g ops).2 := by
  induction ops with
  | nil => intro s g h _; exact h
  | cons op ops ih =>
    intro s g h hok
    obtain ⟨hG, hp, hrest⟩ := hok
    exact ih _ _ (ReachH.call s g op _ h hG (outcome_ok_of_not_panic _ hp)) hrest

theorem not_onFreeList_of_null (s : State) (a : Nat) (h : s.freelist = 0) :
    ¬ onFreeList s a := by
  rintro ⟨ha, k, hk⟩
  rw [h, walk_zero] at hk
  exact ha hk.symm


theorem kinit_oneFrame : kinit oneFrame (boot (fun _ => 0)) = .ok () oneFrameInit := by
  have hacc : kfreeAccepts oneFrame 4096 := by decide
  have hstart : PGROUNDUP oneFrame.kend = 4096 := by decide
  have hpush := kfree_push_eq oneFrame (boot (fun _ => 0)) 4096 hacc (by decide)
  have hle : 4096 + PGSIZE ≤ oneFrame.PHYSTOP := by decide
  have hdone : ¬ (4096 + PGSIZE + PGSIZE ≤ oneFrame.PHYSTOP) := by decide
  rw [kinit, hstart, kinitLoop_next oneFrame 4096 _ _ hle hpush, kinitLoop_done _ _ _ hdone]
  have hrc : Function.update (boot (fun _ => 0)).ref_cnt (4096 / 4096) 0 = fun _ => 0 := by
    funext i
    by_cases hi : i = 4096 / 4096
    · rw [hi, Function.update_same]
    · rw [Function.update_noteq hi]
      rfl
  rw [hrc]
  rfl

theorem doubleFreeState_eq :
    kfree oneFrame oneFrameInit 4096 = .ok () doubleFreeState ∧
      doubleFreeState.freelist = 4096 ∧ doubleFreeState.free_pages = 2 ∧
      loadNext doubleFreeState.mem 4096 = 4096 := by
  have hacc : kfreeAccepts oneFrame 4096 := by decide
  have hpush := kfree_push_eq oneFrame oneFrameInit 4096 hacc (by decide)
  have hst : doubleFreeState = (kfree oneFrame oneFrameInit 4096).state := rfl
  rw [hpush] at hst
  simp only [Outcome.state] at hst
  refine ⟨?_, ?_, ?_, ?_⟩
  · rw [hpush, hst]
  · rw [hst]
  · rw [hst]
    rfl
  · rw [hst]
    exact loadNext_storeNext _ 4096 4096 (by decide)

theorem walk_self_loop (m : Nat → Nat) (a : Nat) (ha : a ≠ 0) (h : loadNext m a = a) :
    ∀ k, walk m a k = a := by
  intro k
  induction k with
  | zero => rfl
  | succ k ih => simp only [walk, if_neg ha, h, ih]

theorem nodup_const_length (l : List Nat) (c : Nat) (hnd : l.Nodup) (h : ∀ a ∈ l, a = c) :
    l.length ≤ 1 := by
  match l, hnd, h with
  | [], _, _ => simp
  | [_], _, _ => simp
  | x :: y :: ys, hnd, h =>
    exfalso
    have hx : x = c := h x (List.mem_cons_self _ _)
    have hy : y = c := h y (List.mem_cons_of_mem _ (List.mem_cons_self _ _))
    have hxn := (List.nodup_cons.1 hnd).1
    apply hxn
    rw [hx, ← hy]
    exact List.mem_cons_self _ _

/-- C7 fails as stated: in the one-frame layout, after `kinit` and a second
`kfree` of the only frame (an address `kfree` accepts), `getFreePagesCount`
returns 2 while the walk from the head only ever meets the frame 4096, whose
link points to itself. -/
theorem counter_mismatch_after_double_free :
    Reach oneFrame anyCall doubleFreeState ∧
    (getFreePagesCount doubleFreeState).1 = 2 ∧
    (∀ k, walk doubleFreeState.mem doubleFreeState.freelist k = 4096) ∧
    (∀ a, onFreeList doubleFreeState a ↔ a = 4096) ∧
    ¬ CounterMatches doubleFreeState := by
  obtain ⟨hk, hfl, hfp, hld⟩ := doubleFreeState_eq
  have hwalk : ∀ k, walk doubleFreeState.mem doubleFreeState.freelist k = 4096 := by
    rw [hfl]
    exact walk_self_loop _ 4096 (by decide) hld
  have hon : ∀ a, onFreeList doubleFreeState a ↔ a = 4096 := by
    intro a
    constructor
    · rintro ⟨_, k, hka⟩
      rw [hwalk k] at hka
      exact hka.symm
    · intro ha
      subst ha
      exact ⟨by decide, 0, hwalk 0⟩
  have hcnt : (getFreePagesCount doubleFreeState).1 = 2 := by
    simp only [getFreePagesCount, hfp]
    rfl
  refine ⟨⟨_, ReachH.call oneFrameInit _ (Op.free 4096) doubleFreeState
    (ReachH.init (fun _ => 0) oneFrameInit kinit_oneFrame) trivial hk⟩, hcnt, hwalk, hon, ?_⟩
  rintro ⟨l, hnd, hmem, hlen⟩
  have hle := nodup_const_length l 4096 hnd (fun a ha => (hon a).1 ((hmem a).1 ha))
  rw [hcnt] at hlen
  have h2 : l.length = 2 := by exact_mod_cast hlen.symm
  omega

/-- C7, as the code has it: in every state reachable from `kinit` by `kalloc`
calls, by `inc_refCount` and `dec_refCount` calls on accepted addresses, and by
`kfree` calls on accepted addresses that are not on the free list at the time
of the call, `getFreePagesCount` equals the number of frames reached by walking
the free list from its head. -/
theorem counter_matches_free_list (L : Layout) (hL : L.ok) (s : State)
    (h : Reach L freeOffList s) : CounterMatches s := by
  obtain ⟨g, hg⟩ := h
  obtain ⟨l, hl⟩ := reach_freeOffList_inv L hL s g hg
  exact listInv_counterMatches L hL s l hl

/-- Instance of C7 (amended) in the one-frame layout, after `kalloc`,
`inc_refCount` and two `kfree` calls on the frame, each made while the frame is
off the free list. -/
theorem counter_matches_free_list_witness :
    oneFrame.ok ∧ Reach oneFrame freeOffList sharedRun.1 ∧ CounterMatches sharedRun.1 ∧
      (getFreePagesCount sharedRun.1).1 = 1 ∧ onFreeList sharedRun.1 4096 := by
  have hok : oneFrame.ok := by decide
  have h0 : ReachH oneFrame freeOffList oneFrameInit (fun _ => true) :=
    ReachH.init (fun _ => 0) oneFrameInit kinit_oneFrame
  have hr : Reach oneFrame freeOffList sharedRun.1 := by
    refine ⟨_, runOps_reach oneFrame freeOffList _ _ _ h0
      ⟨trivial, by decide, trivial, by decide, ?_, by decide, ?_, by decide, trivial⟩⟩
    · exact not_onFreeList_of_null _ _ (by decide)
    · exact not_onFreeList_of_null _ _ (by decide)
  exact ⟨hok, hr, counter_matches_free_list oneFrame hok sharedRun.1 hr, by decide,
    ⟨by decide, 0, by decide⟩⟩

/-- C8: in every state reachable from `kinit` by `kalloc` calls and by
`kfree`, `inc_refCount` and `dec_refCount` calls applied only to held frames
(reference count at least 1 at the time of the call), a frame returned by
`kalloc` had reference count 0 immediately before the call, has reference
count exactly 1 immediately after it, and is not on the free list after it;
hence no frame whose count is at least 1 is handed out. -/
theorem kalloc_returns_unheld_frame (L : Layout) (hL : L.ok) (s : State)
    (h : Reach L heldOnly s) (hr : (kalloc s).1 ≠ 0) :
    s.ref_cnt (PADDR (kalloc s).1 >>> PGSHIFT) = 0 ∧
    (kalloc s).2.ref_cnt (PADDR (kalloc s).1 >>> PGSHIFT) = 1 ∧
    ¬ onFreeList (kalloc s).2 (kalloc s).1 ∧
    (∀ a, 1 ≤ s.ref_cnt (PADDR a >>> PGSHIFT) → (kalloc s).1 ≠ a) := by
  obtain ⟨g, hg⟩ := h
  obtain ⟨l, hl, hz⟩ := reach_heldOnly_inv L hL s g hg
  obtain ⟨h1, h2, h3⟩ := listInv_kalloc L hL s l hl
  simp only [PADDR, shift_eq_div]
  cases l with
  | nil =>
    exfalso
    apply hr
    rw [h2]
    rfl
  | cons x xs =>
    simp only [List.headD_cons] at h2
    simp only [List.headD_cons, reduceCtorEq, if_false] at h3
    have hx0 : s.ref_cnt (x / 4096) = 0 := hz x (List.mem_cons_self x xs)
    rw [h2, h3]
    refine ⟨hx0, Function.update_same _ _ _, ?_, ?_⟩
    · rw [onFreeList_iff_mem _ _ h1.1 x]
      exact (List.nodup_cons.1 hl.2.1).1
    · intro a ha hxa
      rw [← hxa] at ha
      omega

/-- Instance of C8 in the one-frame layout: the frame is allocated, shared,
freed twice, and then allocated again. -/
theorem kalloc_returns_unheld_frame_witness :
    oneFrame.ok ∧ Reach oneFrame heldOnly sharedRun.1 ∧ (kalloc sharedRun.1).1 = 4096 ∧
      sharedRun.1.ref_cnt (PADDR (kalloc sharedRun.1).1 >>> PGSHIFT) = 0 ∧
      (kalloc sharedRun.1).2.ref_cnt (PADDR (kalloc sharedRun.1).1 >>> PGSHIFT) = 1 ∧
      ¬ onFreeList (kalloc sharedRun.1).2 (kalloc sharedRun.1).1 := by
  have hok : oneFrame.ok := by decide
  have h0 : ReachH oneFrame heldOnly oneFrameInit (fun _ => true) :=
    ReachH.init (fun _ => 0) oneFrameInit kinit_oneFrame
  have hr : Reach oneFrame heldOnly sharedRun.1 := by
    refine ⟨_, runOps_reach oneFrame heldOnly _ _ _ h0
      ⟨trivial, by decide, ?_, by decide, ?_, by decide, ?_, by decide, trivial⟩⟩
    · show 1 ≤ _
      decide
    · show 1 ≤ _
      decide
    · show 1 ≤ _
      decide
  have hne : (kalloc sharedRun.1).1 ≠ 0 := by decide
  have h := kalloc_returns_unheld_frame oneFrame hok sharedRun.1 hr hne
  exact ⟨hok, hr, by decide, h.1, h.2.1, h.2.2.1⟩

theorem kalloc_fst (s : State) : (kalloc s).1 = s.freelist := by
  by_cases h : s.freelist = 0
  · rw [kalloc_eq_of_null s h, h]
  · rw [kalloc_eq_of_ne s h]

theorem get_refCount_eq (L : Layout) (s : State) (pa : Nat) (h1 : L.kend ≤ pa)
    (h2 : pa < L.PHYSTOP) : get_refCount L s pa = .ok (s.ref_cnt (pa / 4096)) s := by
  have hn : ¬ (pa ≥ L.PHYSTOP ∨ pa < PADDR L.kend) := by
    simp only [PADDR]
    omega
  simp only [get_refCount, if_neg hn, shift_eq_div]

theorem inc_refCount_eq (L : Layout) (s : State) (pa : Nat) (h1 : L.kend ≤ pa)
    (h2 : pa < L.PHYSTOP) :
    inc_refCount L s pa = .ok () { s with
      ref_cnt := Function.update s.ref_cnt (pa / 4096)
        ((s.ref_cnt (pa / 4096) + 1) % 2 ^ 32) } := by
  have hn : ¬ (pa ≥ L.PHYSTOP ∨ pa < PADDR L.kend) := by
    simp only [PADDR]
    omega
  simp only [inc_refCount, if_neg hn, shift_eq_div]

theorem dec_refCount_eq (L : Layout) (s : State) (pa : Nat) (h1 : L.kend ≤ pa)
    (h2 : pa < L.PHYSTOP) :
    dec_refCount L s pa = .ok () { s with
      ref_cnt := Function.update s.ref_cnt (pa / 4096)
        ((s.ref_cnt (pa / 4096) + (2 ^ 32 - 1)) % 2 ^ 32) } := by
  have hn : ¬ (pa ≥ L.PHYSTOP ∨ pa < PADDR L.kend) := by
    simp only [PADDR]
    omega
  simp only [dec_refCount, if_neg hn, shift_eq_div]

theorem refcount_range_of_not_panic (L : Layout) (s : State) (pa : Nat) :
    ((inc_refCount L s pa).isPanic = false → L.kend ≤ pa ∧ pa < L.PHYSTOP) ∧
    ((dec_refCount L s pa).isPanic = false → L.kend ≤ pa ∧ pa < L.PHYSTOP) ∧
    ((get_refCount L s pa).isPanic = false → L.kend ≤ pa ∧ pa < L.PHYSTOP) := by
  by_cases h : pa ≥ L.PHYSTOP ∨ pa < PADDR L.kend
  · simp [inc_refCount, dec_refCount, get_refCount, if_pos h, Outcome.isPanic]
  · have h2 : L.kend ≤ pa ∧ pa < L.PHYSTOP := by
      simp only [PADDR] at h
      omega
    exact ⟨fun _ => h2, fun _ => h2, fun _ => h2⟩

/-- C12: stack discipline.  For an address `a` that `kfree` accepts and whose
reference count is 0 or 1, after `kfree(a)` the call `get_refCount(a)` returns
0 and the very next `kalloc` returns `a`.  In particular, when `kalloc` hands
out the head `a` of a non-empty list and `a` is then freed once (accepted by
`kfree`, no increment in between), the next `kalloc` returns `a` again. -/
theorem kfree_then_kalloc (L : Layout) (s : State) (a : Nat)
    (hacc : (kfree L s a).isPanic = false) (hc : s.ref_cnt (PADDR a >>> PGSHIFT) ≤ 1) :
    get_refCount L (kfree L s a).state a = .ok 0 (kfree L s a).state ∧
    (kalloc (kfree L s a).state).1 = a ∧
    (s.freelist ≠ 0 → (kfree L (kalloc s).2 (kalloc s).1).isPanic = false →
      (kalloc s).1 = s.freelist ∧
      get_refCount L (kfree L (kalloc s).2 (kalloc s).1).state (kalloc s).1 =
        .ok 0 (kfree L (kalloc s).2 (kalloc s).1).state ∧
      (kalloc (kfree L (kalloc s).2 (kalloc s).1).state).1 = (kalloc s).1) := by
  have key : ∀ (u : State) (v : Nat), (kfree L u v).isPanic = false →
      u.ref_cnt (v / 4096) ≤ 1 →
      get_refCount L (kfree L u v).state v = .ok 0 (kfree L u v).state ∧
        (kalloc (kfree L u v).state).1 = v := by
    intro u v hv hcv
    have hacc2 := (kfree_accepts_iff L u v).1 hv
    rw [kalloc_fst, get_refCount_eq L _ v hacc2.2.1 hacc2.2.2, kfree_push_eq L u v hacc2 hcv]
    simp only [Outcome.state, Function.update_same, and_self]
  rw [PADDR, shift_eq_div] at hc
  refine ⟨(key s a hacc hc).1, (key s a hacc hc).2, fun hne hp => ?_⟩
  have hcnt : (kalloc s).2.ref_cnt ((kalloc s).1 / 4096) ≤ 1 := by
    rw [kalloc_eq_of_ne s hne]
    simp only [Function.update_same, le_refl]
  exact ⟨kalloc_fst s, (key _ _ hp hcnt).1, (key _ _ hp hcnt).2⟩

/-- Instance of C12: freeing frame 4096 (count 0) in the demo state, and
allocating then freeing the head 8192. -/
theorem kfree_then_kalloc_witness :
    (kfree demoLayout demoState 4096).isPanic = false ∧
      demoState.ref_cnt (PADDR 4096 >>> PGSHIFT) ≤ 1 ∧
      (kalloc (kfree demoLayout demoState 4096).state).1 = 4096 ∧
      (kalloc (kfree demoLayout (kalloc demoState).2 (kalloc demoState).1).state).1 =
        (kalloc demoState).1 ∧
      (kalloc demoState).1 = 8192 := by
  have hp : (kfree demoLayout demoState 4096).isPanic = false := by decide
  have hc : demoState.ref_cnt (PADDR 4096 >>> PGSHIFT) ≤ 1 := by decide
  have h := kfree_then_kalloc demoLayout demoState 4096 hp hc
  exact ⟨hp, hc, h.2.1, (h.2.2 (by decide) (by decide)).2.2, by decide⟩

/-- C14: for an address `pa` that the range check accepts, `inc_refCount(pa)`
and `dec_refCount(pa)` change only the entry with index `pa >> 12` (by +1 and
-1 in `uint` arithmetic) and leave the free-list head, the memory holding the
list, the free-page counter and every other entry unchanged, so the frames on
the free list are the same before and after; `get_refCount(pa)` returns that
entry and `getFreePagesCount` returns the counter (as an `int`), both leaving
the whole state unchanged. -/
theorem refcount_ops_frame (L : Layout) (s : State) (pa : Nat)
    (hacc : (inc_refCount L s pa).isPanic = false) :
    ((inc_refCount L s pa).state.ref_cnt (pa >>> PGSHIFT) =
        (s.ref_cnt (pa >>> PGSHIFT) + 1) % 2 ^ 32 ∧
      (∀ i, i ≠ pa >>> PGSHIFT → (inc_refCount L s pa).state.ref_cnt i = s.ref_cnt i) ∧
      (inc_refCount L s pa).state.freelist = s.freelist ∧
      (inc_refCount L s pa).state.mem = s.mem ∧
      (inc_refCount L s pa).state.free_pages = s.free_pages ∧
      (∀ a, onFreeList (inc_refCount L s pa).state a ↔ onFreeList s a)) ∧
    ((dec_refCount L s pa).isPanic = false ∧
      (dec_refCount L s pa).state.ref_cnt (pa >>> PGSHIFT) =
        (s.ref_cnt (pa >>> PGSHIFT) + (2 ^ 32 - 1)) % 2 ^ 32 ∧
      (((dec_refCount L s pa).state.ref_cnt (pa >>> PGSHIFT) : Nat) : Int) =
        ((s.ref_cnt (pa >>> PGSHIFT) : Int) - 1) % 2 ^ 32 ∧
      (∀ i, i ≠ pa >>> PGSHIFT → (dec_refCount L s pa).state.ref_cnt i = s.ref_cnt i) ∧
      (dec_refCount L s pa).state.freelist = s.freelist ∧
      (dec_refCount L s pa).state.mem = s.mem ∧
      (dec_refCount L s pa).state.free_pages = s.free_pages ∧
      (∀ a, onFreeList (dec_refCount L s pa).state a ↔ onFreeList s a)) ∧
    get_refCount L s pa = .ok (s.ref_cnt (pa >>> PGSHIFT)) s ∧
    ((getFreePagesCount s).2 = s ∧ (getFreePagesCount s).1 = toInt32 s.free_pages ∧
      (s.free_pages < 2 ^ 31 → (getFreePagesCount s).1 = (s.free_pages : Int))) := by
  obtain ⟨h1, h2⟩ := (refcount_range_of_not_panic L s pa).1 hacc
  simp only [shift_eq_div]
  rw [inc_refCount_eq L s pa h1 h2, dec_refCount_eq L s pa h1 h2, get_refCount_eq L s pa h1 h2]
  simp only [Outcome.state, Outcome.isPanic, Function.update_same, true_and]
  refine ⟨⟨fun i hi => Function.update_noteq hi _ _, fun a => Iff.rfl⟩,
    ⟨?_, fun i hi => Function.update_noteq hi _ _, fun a => Iff.rfl⟩, rfl, rfl,
    fun h => toInt32_small _ h⟩
  omega

/-- Instance of C14 at address 8192 of the demo layout. -/
theorem refcount_ops_frame_witness :
    (inc_refCount demoLayout demoState 8192).isPanic = false ∧
      (inc_refCount demoLayout demoState 8192).state.ref_cnt (8192 >>> PGSHIFT) = 1 ∧
      (dec_refCount demoLayout demoState 8192).state.ref_cnt (8192 >>> PGSHIFT) =
        4294967295 ∧
      get_refCount demoLayout demoState 8192 = .ok 0 demoState := by
  have hp : (inc_refCount demoLayout demoState 8192).isPanic = false := by decide
  have h := refcount_ops_frame demoLayout demoState 8192 hp
  exact ⟨hp, h.1.1, h.2.1.2.1, h.2.2.1⟩

/-- C16: `dec_refCount` has no floor.  For an accepted address `pa`, after
`dec_refCount(pa)` the call `get_refCount(pa)` returns (old count - 1) mod
2^32, a non-negative 32-bit value; when the old count is 0 the result is
4294967295, the free list and the free-page counter are unchanged, and a
following accepted `kfree` on that frame lowers the count to 4294967294 and
does not push the frame (head and counter unchanged).  `kfree` itself leaves a
count of 0 at 0. -/
theorem dec_refCount_no_floor (L : Layout) (s : State) (pa : Nat)
    (hacc : (dec_refCount L s pa).isPanic = false) :
    get_refCount L (dec_refCount L s pa).state pa =
      .ok ((s.ref_cnt (pa >>> PGSHIFT) + (2 ^ 32 - 1)) % 2 ^ 32) (dec_refCount L s pa).state ∧
    (((s.ref_cnt (pa >>> PGSHIFT) + (2 ^ 32 - 1)) % 2 ^ 32 : Nat) : Int) =
      ((s.ref_cnt (pa >>> PGSHIFT) : Int) - 1) % 2 ^ 32 ∧
    (s.ref_cnt (pa >>> PGSHIFT) + (2 ^ 32 - 1)) % 2 ^ 32 < 2 ^ 32 ∧
    (s.ref_cnt (pa >>> PGSHIFT) = 0 →
      (dec_refCount L s pa).state.ref_cnt (pa >>> PGSHIFT) = 4294967295 ∧
      (dec_refCount L s pa).state.freelist = s.freelist ∧
      (dec_refCount L s pa).state.mem = s.mem ∧
      (dec_refCount L s pa).state.free_pages = s.free_pages ∧
      (∀ v, (kfree L (dec_refCount L s pa).state v).isPanic = false →
        PADDR v >>> PGSHIFT = pa >>> PGSHIFT →
        (kfree L (dec_refCount L s pa).state v).state.ref_cnt (pa >>> PGSHIFT) = 4294967294 ∧
        (kfree L (dec_refCount L s pa).state v).state.freelist = s.freelist ∧
        (kfree L (dec_refCount L s pa).state v).state.free_pages = s.free_pages)) ∧
    (∀ u v, (kfree L u v).isPanic = false → u.ref_cnt (PADDR v >>> PGSHIFT) = 0 →
      (kfree L u v).state.ref_cnt (PADDR v >>> PGSHIFT) = 0) := by
  obtain ⟨h1, h2⟩ := (refcount_range_of_not_panic L s pa).2.1 hacc
  simp only [PADDR, shift_eq_div]
  refine ⟨?_, by omega, by omega, fun h0 => ?_, fun u v hv hu => ?_⟩
  · rw [get_refCount_eq L _ pa h1 h2, dec_refCount_eq L s pa h1 h2]
    simp only [Outcome.state, Function.update_same]
  · rw [dec_refCount_eq L s pa h1 h2]
    simp only [Outcome.state, Function.update_same, h0, true_and]
    refine ⟨by decide, fun v hv hidx => ?_⟩
    have hav := (kfree_accepts_iff L _ v).1 hv
    have hcnt : Function.update s.ref_cnt (pa / 4096) ((0 + (2 ^ 32 - 1)) % 2 ^ 32)
        (v / 4096) = 4294967295 := by
      rw [hidx, Function.update_same]
      decide
    rw [kfree_share_eq L _ v hav (by
      show 2 ≤ Function.update s.ref_cnt (pa / 4096) _ (v / 4096)
      rw [hcnt]
      decide)]
    simp only [Outcome.state, and_self, and_true]
    rw [hcnt, ← hidx, Function.update_same]
  · have hav := (kfree_accepts_iff L u v).1 hv
    rw [kfree_push_eq L u v hav (by omega)]
    simp only [Outcome.state, Function.update_same]

/-- Instance of C16 at frame 8192 of the demo layout, whose count is 0. -/
theorem dec_refCount_no_floor_witness :
    (dec_refCount demoLayout demoState 8192).isPanic = false ∧
      get_refCount demoLayout (dec_refCount demoLayout demoState 8192).state 8192 =
        .ok 4294967295 (dec_refCount demoLayout demoState 8192).state ∧
      (kfree demoLayout (dec_refCount demoLayout demoState 8192).state 8192).state.ref_cnt
        (8192 >>> PGSHIFT) = 4294967294 ∧
      (kfree demoLayout (dec_refCount demoLayout demoState 8192).state 8192).state.free_pages
        = 1 := by
  have hp : (dec_refCount demoLayout demoState 8192).isPanic = false := by decide
  have h := dec_refCount_no_floor demoLayout demoState 8192 hp
  have hk := (h.2.2.2.1 (by decide)).2.2.2.2 8192 (by decide) (by decide)
  exact ⟨hp, h.1, hk.1, hk.2.2⟩

/-- C17: an accepted `kfree(v)` overwrites the frame with the fill byte 1
whatever the reference count is.  When the count stays above 0 all 4096 bytes
of the frame are 1 on return; when the frame is pushed on the free list every
byte after the leading 4-byte `next` word is 1.  No byte outside
`[v, v + 4096)` is modified. -/
theorem kfree_scrubs_frame (L : Layout) (s : State) (v : Nat)
    (hacc : (kfree L s v).isPanic = false) :
    (2 ≤ s.ref_cnt (PADDR v >>> PGSHIFT) →
      0 < (kfree L s v).state.ref_cnt (PADDR v >>> PGSHIFT) ∧
      (kfree L s v).state.freelist = s.freelist ∧
      ∀ b, v ≤ b → b < v + 4096 → (kfree L s v).state.mem b = 1) ∧
    (s.ref_cnt (PADDR v >>> PGSHIFT) ≤ 1 →
      (kfree L s v).state.freelist = v ∧
      ∀ b, v + 4 ≤ b → b < v + 4096 → (kfree L s v).state.mem b = 1) ∧
    (∀ b, (b < v ∨ v + 4096 ≤ b) → (kfree L s v).state.mem b = s.mem b) := by
  have hav := (kfree_accepts_iff L s v).1 hacc
  simp only [PADDR, shift_eq_div]
  refine ⟨fun hc => ?_, fun hc => ?_, fun b hb => ?_⟩
  · rw [kfree_share_eq L s v hav hc]
    simp only [Outcome.state, Function.update_same, true_and]
    refine ⟨by omega, fun b hb1 hb2 => ?_⟩
    have hin : v ≤ b ∧ b < v + PGSIZE := ⟨hb1, hb2⟩
    simp only [memset, if_pos hin]
  · rw [kfree_push_eq L s v hav hc]
    simp only [Outcome.state, true_and]
    intro b hb1 hb2
    have h0 : ¬ (b = v) := by omega
    have h1 : ¬ (b = v + 1) := by omega
    have h2 : ¬ (b = v + 2) := by omega
    have h3 : ¬ (b = v + 3) := by omega
    have hin : v ≤ b ∧ b < v + PGSIZE := ⟨by omega, hb2⟩
    simp only [storeNext, if_neg h0, if_neg h1, if_neg h2, if_neg h3, memset, if_pos hin]
  · have h0 : ¬ (b = v) := by omega
    have h1 : ¬ (b = v + 1) := by omega
    have h2 : ¬ (b = v + 2) := by omega
    have h3 : ¬ (b = v + 3) := by omega
    have hout : ¬ (v ≤ b ∧ b < v + PGSIZE) := by
      simp only [PGSIZE]
      omega
    by_cases hc : 2 ≤ s.ref_cnt (v / 4096)
    · rw [kfree_share_eq L s v hav hc]
      simp only [Outcome.state, memset, if_neg hout]
    · rw [kfree_push_eq L s v hav (by omega)]
      simp only [Outcome.state, storeNext, if_neg h0, if_neg h1, if_neg h2, if_neg h3, memset,
        if_neg hout]

/-- Instance of C17: freeing frame 4096 (count 0) in the demo state. -/
theorem kfree_scrubs_frame_witness :
    (kfree demoLayout demoState 4096).isPanic = false ∧
      (kfree demoLayout demoState 4096).state.mem 4100 = 1 ∧
      (kfree demoLayout demoState 4096).state.mem 8191 = 1 ∧
      (kfree demoLayout demoState 4096).state.mem 8192 = demoState.mem 8192 := by
  have hp : (kfree demoLayout demoState 4096).isPanic = false := by decide
  have h := kfree_scrubs_frame demoLayout demoState 4096 hp
  exact ⟨hp, (h.2.1 (by decide)).2 4100 (by decide) (by decide),
    (h.2.1 (by decide)).2 8191 (by decide) (by decide), h.2.2 8192 (by decide)⟩

/-! ## Scenarios -/

/-- C11 fails as stated: in the one-frame layout, in the state reached by
`kinit` followed by a second `kfree` of the frame, the head's `next` link
points to the head itself; after `kalloc`, `inc_refCount` and one `kfree` on
the returned frame 4096, that frame is still the head of the free list. -/
theorem share_and_release_self_loop :
    Reach oneFrame anyCall doubleFreeState ∧ doubleFreeState.freelist ≠ 0 ∧
    kfreeAccepts oneFrame doubleFreeState.freelist ∧
    (kalloc doubleFreeState).1 = 4096 ∧
    (inc_refCount oneFrame (kalloc doubleFreeState).2 4096).isPanic = false ∧
    (kfree oneFrame (afterInc oneFrame doubleFreeState) 4096).isPanic = false ∧
    (afterFree1 oneFrame doubleFreeState).freelist = (kalloc doubleFreeState).1 := by
  refine ⟨⟨_, ReachH.call oneFrameInit _ (Op.free 4096) doubleFreeState
    (ReachH.init (fun _ => 0) oneFrameInit kinit_oneFrame) trivial doubleFreeState_eq.1⟩,
    by decide, by decide, by decide, by decide, by decide, by decide⟩

/-- C11, as the code has it: in a state whose free list is non-empty with a head
`a` that `kfree` accepts and whose `next` link does not point back to `a`, let
`k` be the free-page count right after `kalloc` returns `a`.  After
`inc_refCount(a)`, `get_refCount(a)` is 2.  After one `kfree(a)`,
`get_refCount(a)` is 1, the count is still `k` and `a` is not the head.  After
a second `kfree(a)`, `get_refCount(a)` is 0, `a` is the head and the count is
`k + 1` (in `uint` arithmetic). -/
theorem share_and_release (L : Layout) (s : State) (hne : s.freelist ≠ 0)
    (hacc : kfreeAccepts L s.freelist) (hloop : loadNext s.mem s.freelist ≠ s.freelist) :
    (kalloc s).1 = s.freelist ∧
    (inc_refCount L (kalloc s).2 (kalloc s).1).isPanic = false ∧
    get_refCount L (afterInc L s) (kalloc s).1 = .ok 2 (afterInc L s) ∧
    (kfree L (afterInc L s) (kalloc s).1).isPanic = false ∧
    get_refCount L (afterFree1 L s) (kalloc s).1 = .ok 1 (afterFree1 L s) ∧
    (afterFree1 L s).free_pages = (kalloc s).2.free_pages ∧
    (afterFree1 L s).freelist ≠ (kalloc s).1 ∧
    (kfree L (afterFree1 L s) (kalloc s).1).isPanic = false ∧
    get_refCount L (afterFree2 L s) (kalloc s).1 = .ok 0 (afterFree2 L s) ∧
    (afterFree2 L s).freelist = (kalloc s).1 ∧
    (afterFree2 L s).free_pages = ((kalloc s).2.free_pages + 1) % 2 ^ 32 ∧
    ((kalloc s).2.free_pages + 1 < 2 ^ 32 →
      (afterFree2 L s).free_pages = (kalloc s).2.free_pages + 1) := by
  have hA : (kalloc s).1 = s.freelist := kalloc_fst s
  have h1 := hacc.2.1
  have h2 := hacc.2.2
  have hk := kalloc_eq_of_ne s hne
  have hi := inc_refCount_eq L (kalloc s).2 s.freelist h1 h2
  have hs2 : afterInc L s = { (kalloc s).2 with
      ref_cnt := Function.update (kalloc s).2.ref_cnt (s.freelist / 4096)
        (((kalloc s).2.ref_cnt (s.freelist / 4096) + 1) % 2 ^ 32) } := by
    simp only [afterInc, hA, hi, Outcome.state]
  have hc1 : (kalloc s).2.ref_cnt (s.freelist / 4096) = 1 := by
    rw [hk]
    exact Function.update_same _ _ _
  have hc2 : (afterInc L s).ref_cnt (s.freelist / 4096) = 2 := by
    rw [hs2]
    simp only [Function.update_same, hc1]
    decide
  have hf1 := kfree_share_eq L (afterInc L s) s.freelist hacc (by rw [hc2])
  have hs3 : afterFree1 L s = { afterInc L s with
      mem := memset (afterInc L s).mem s.freelist 1 PGSIZE
      ref_cnt := Function.update (afterInc L s).ref_cnt (s.freelist / 4096)
        ((afterInc L s).ref_cnt (s.freelist / 4096) - 1) } := by
    simp only [afterFree1, hA, hf1, Outcome.state]
  have hc3 : (afterFree1 L s).ref_cnt (s.freelist / 4096) = 1 := by
    rw [hs3]
    simp only [Function.update_same, hc2]
  have hf2 := kfree_push_eq L (afterFree1 L s) s.freelist hacc (by rw [hc3])
  have hs4 : afterFree2 L s = { afterFree1 L s with
      mem := storeNext (memset (memset (afterFree1 L s).mem s.freelist 1 PGSIZE)
        s.freelist 1 PGSIZE) s.freelist (afterFree1 L s).freelist
      ref_cnt := Function.update (afterFree1 L s).ref_cnt (s.freelist / 4096) 0
      freelist := s.freelist
      free_pages := ((afterFree1 L s).free_pages + 1) % 2 ^ 32 } := by
    simp only [afterFree2, hA, hf2, Outcome.state]
  have hfp3 : (afterFree1 L s).free_pages = (kalloc s).2.free_pages := by
    rw [hs3, hs2]
  have hfl3 : (afterFree1 L s).freelist = loadNext s.mem s.freelist := by
    rw [hs3, hs2, hk]
  have hfp4 : (afterFree2 L s).free_pages = ((kalloc s).2.free_pages + 1) % 2 ^ 32 := by
    rw [hs4]
    show ((afterFree1 L s).free_pages + 1) % 2 ^ 32 = _
    rw [hfp3]
  have hc4 : (afterFree2 L s).ref_cnt (s.freelist / 4096) = 0 := by
    rw [hs4]
    exact Function.update_same _ _ _
  rw [hA]
  refine ⟨rfl, ?_, ?_, ?_, ?_, hfp3, ?_, ?_, ?_, ?_, hfp4, ?_⟩
  · rw [hi]
    rfl
  · rw [get_refCount_eq L _ _ h1 h2, hc2]
  · rw [hf1]
    rfl
  · rw [get_refCount_eq L _ _ h1 h2, hc3]
  · rw [hfl3]
    exact hloop
  · rw [hf2]
    rfl
  · rw [get_refCount_eq L _ _ h1 h2, hc4]
  · rw [hs4]
  · intro hlt
    rw [hfp4]
    exact Nat.mod_eq_of_lt hlt

/-- Instance of C11 (amended) at the demo state, whose head 8192 has a null
`next` link. -/
theorem share_and_release_witness :
    demoState.freelist ≠ 0 ∧ kfreeAccepts demoLayout demoState.freelist ∧
      loadNext demoState.mem demoState.freelist ≠ demoState.freelist ∧
      get_refCount demoLayout (afterInc demoLayout demoState) (kalloc demoState).1 =
        .ok 2 (afterInc demoLayout demoState) ∧
      get_refCount demoLayout (afterFree1 demoLayout demoState) (kalloc demoState).1 =
        .ok 1 (afterFree1 demoLayout demoState) ∧
      (afterFree2 demoLayout demoState).freelist = (kalloc demoState).1 ∧
      (afterFree2 demoLayout demoState).free_pages = 1 := by
  have hne : demoState.freelist ≠ 0 := by decide
  have hacc : kfreeAccepts demoLayout demoState.freelist := by decide
  have hloop : loadNext demoState.mem demoState.freelist ≠ demoState.freelist := by decide
  have h := share_and_release demoLayout demoState hne hacc hloop
  exact ⟨hne, hacc, hloop, h.2.2.1, h.2.2.2.2.1, h.2.2.2.2.2.2.2.2.2.1,
    h.2.2.2.2.2.2.2.2.2.2.2 (by decide)⟩

/-- C18: `kfree` does not check whether the frame is already on the free list.
There is a state reachable from `kinit` and an accepted address `a` with
reference count 0 that is on the free list such that `kfree(a)` makes `a` the
head again and increments the free-page counter, after which two successive
`kalloc` calls both return `a`, each leaving its reference count at 1. -/
theorem double_free_returns_frame_twice :
    ∃ (L : Layout) (s : State) (a : Nat),
      Reach L anyCall s ∧ kfreeAccepts L a ∧ s.ref_cnt (PADDR a >>> PGSHIFT) = 0 ∧
      onFreeList s a ∧ (kfree L s a).isPanic = false ∧
      (kfree L s a).state.freelist = a ∧
      (kfree L s a).state.free_pages = s.free_pages + 1 ∧
      (kalloc (kfree L s a).state).1 = a ∧
      (kalloc (kfree L s a).state).2.ref_cnt (PADDR a >>> PGSHIFT) = 1 ∧
      (kalloc (kalloc (kfree L s a).state).2).1 = a ∧
      (kalloc (kalloc (kfree L s a).state).2).2.ref_cnt (PADDR a >>> PGSHIFT) = 1 := by
  refine ⟨oneFrame, oneFrameInit, 4096,
    ⟨_, ReachH.init (fun _ => 0) oneFrameInit kinit_oneFrame⟩, by decide, by decide,
    ⟨by decide, 0, by decide⟩, by decide, by decide, by decide, by decide, by decide,
    by decide, by decide⟩

/-- C19 fails as stated for the head of the free list: in the one-frame layout
(`PHYSTOP = 8192`, a table of 2 entries), after `kinit`, two `inc_refCount`
calls on the free frame, one `kfree` (which scrubs the frame without pushing
it) and one `kalloc`, the head of the free list is the fill pattern
`0x01010101`, whose index 4112 is outside the table. -/
theorem refcnt_index_out_of_bounds :
    oneFrame.PHYSTOP % 4096 = 0 ∧ Reach oneFrame anyCall scrubbedRun.1 ∧
    scrubbedRun.1.freelist = 16843009 ∧ scrubbedRun.1.freelist ≠ 0 ∧
    PADDR scrubbedRun.1.freelist >>> PGSHIFT = 4112 ∧
    ¬ (PADDR scrubbedRun.1.freelist >>> PGSHIFT < oneFrame.PHYSTOP / 4096) := by
  have h0 : ReachH oneFrame anyCall oneFrameInit (fun _ => true) :=
    ReachH.init (fun _ => 0) oneFrameInit kinit_oneFrame
  refine ⟨by decide, ⟨_, runOps_reach oneFrame anyCall _ _ _ h0
    ⟨trivial, by decide, trivial, by decide, trivial, by decide, trivial, by decide, trivial⟩⟩,
    by decide, by decide, by decide, by decide⟩

/-- C19, as the code has it: when `PHYSTOP` is a multiple of 4096, every address
accepted by the range check of `kfree`, `inc_refCount`, `dec_refCount` or
`get_refCount` has an index `pa >> 12` below the table size `PHYSTOP / 4096`;
and in every state reachable from `kinit` through accepted calls in which
`kfree` is only applied to frames that are not on the free list, the index
`kalloc` computes for a non-null head is below `PHYSTOP / 4096` too. -/
theorem refcnt_index_in_bounds (L : Layout) (hP : L.PHYSTOP % 4096 = 0) :
    (∀ s v, (kfree L s v).isPanic = false → PADDR v >>> PGSHIFT < L.PHYSTOP / 4096) ∧
    (∀ s pa, (inc_refCount L s pa).isPanic = false → pa >>> PGSHIFT < L.PHYSTOP / 4096) ∧
    (∀ s pa, (dec_refCount L s pa).isPanic = false → pa >>> PGSHIFT < L.PHYSTOP / 4096) ∧
    (∀ s pa, (get_refCount L s pa).isPanic = false → pa >>> PGSHIFT < L.PHYSTOP / 4096) ∧
    (L.ok → ∀ s, Reach L freeOffList s → s.freelist ≠ 0 →
      PADDR s.freelist >>> PGSHIFT < L.PHYSTOP / 4096) := by
  have hlt : ∀ pa, pa < L.PHYSTOP → pa / 4096 < L.PHYSTOP / 4096 := by
    intro pa h
    omega
  simp only [PADDR, shift_eq_div]
  refine ⟨fun s v h => hlt v ((kfree_accepts_iff L s v).1 h).2.2,
    fun s pa h => hlt pa ((refcount_range_of_not_panic L s pa).1 h).2,
    fun s pa h => hlt pa ((refcount_range_of_not_panic L s pa).2.1 h).2,
    fun s pa h => hlt pa ((refcount_range_of_not_panic L s pa).2.2 h).2,
    fun hL s hr hne => ?_⟩
  obtain ⟨g, hg⟩ := hr
  obtain ⟨l, hl⟩ := reach_freeOffList_inv L hL s g hg
  obtain ⟨hlist, _⟩ := FreeChain_head s.mem s.freelist l hne hl.1
  have hmem : s.freelist ∈ l := by
    rw [hlist]
    exact List.mem_cons_self _ _
  exact hlt _ (hl.2.2.1 _ hmem).2.2

/-- Instance of C19 (amended) in the one-frame layout after `kinit`. -/
theorem refcnt_index_in_bounds_witness :
    oneFrame.PHYSTOP % 4096 = 0 ∧ oneFrame.ok ∧ Reach oneFrame freeOffList oneFrameInit ∧
      oneFrameInit.freelist ≠ 0 ∧
      PADDR oneFrameInit.freelist >>> PGSHIFT < oneFrame.PHYSTOP / 4096 ∧
      ((kfree oneFrame oneFrameInit 4096).isPanic = false →
        PADDR 4096 >>> PGSHIFT < oneFrame.PHYSTOP / 4096) := by
  have hP : oneFrame.PHYSTOP % 4096 = 0 := by decide
  have hok : oneFrame.ok := by decide
  have hr : Reach oneFrame freeOffList oneFrameInit :=
    ⟨_, ReachH.init (fun _ => 0) oneFrameInit kinit_oneFrame⟩
  have hne : oneFrameInit.freelist ≠ 0 := by decide
  have h := refcnt_index_in_bounds oneFrame hP
  exact ⟨hP, hok, hr, hne, h.2.2.2.2 hok oneFrameInit hr hne, h.1 oneFrameInit 4096⟩

/-! ## Allocating everything and freeing in reverse order -/

theorem nodup_length_le_of_bound (L : Layout) (hP : L.PHYSTOP ≤ 2 ^ 32) (l : List Nat)
    (hnd : l.Nodup) (hacc : ∀ x ∈ l, kfreeAccepts L x) : l.length ≤ 2 ^ 20 := by
  have hmap : (l.map (fun x => x / 4096)).Nodup := by
    refine List.Nodup.map_on (fun x hx y hy hxy => ?_) hnd
    have h1 := (hacc x hx).1
    have h2 := (hacc y hy).1
    simp only [PGSIZE] at h1 h2
    omega
  have hsub : (l.map (fun x => x / 4096)).toFinset ⊆ Finset.range (2 ^ 20) := by
    intro i hi
    simp only [List.mem_toFinset, List.mem_map] at hi
    obtain ⟨x, hx, hxi⟩ := hi
    have h3 := (hacc x hx).2.2
    simp only [Finset.mem_range]
    omega
  have hcard := Finset.card_le_card hsub
  rw [List.toFinset_card_of_nodup hmap, Finset.card_range, List.length_map] at hcard
  exact hcard

theorem kalloc_keeps_one (s : State) (i : Nat) (h : s.ref_cnt i = 1) :
    (kalloc s).2.ref_cnt i = 1 := by
  by_cases hn : s.freelist = 0
  · rw [kalloc_eq_of_null s hn]
    exact h
  · rw [kalloc_eq_of_ne s hn]
    show Function.update s.ref_cnt (s.freelist / 4096) 1 i = 1
    by_cases hi : i = s.freelist / 4096
    · rw [hi, Function.update_same]
    · rw [Function.update_noteq hi]
      exact h

theorem kallocN_keeps_one (n : Nat) :
    ∀ (s : State) (i : Nat), s.ref_cnt i = 1 → (kallocN n s).2.ref_cnt i = 1 := by
  induction n with
  | zero => intro s i h; exact h
  | succ n ih =>
    intro s i h
    exact ih (kalloc s).2 i (kalloc_keeps_one s i h)

/-- Popping a whole list with `kalloc` leaves memory as it was and every node
with reference count 1. -/
theorem kallocN_chain_counts (l : List Nat) :
    ∀ s : State, FreeChain s.mem s.freelist l →
      (kallocN l.length s).2.mem = s.mem ∧
        ∀ x ∈ l, (kallocN l.length s).2.ref_cnt (x / 4096) = 1 := by
  induction l with
  | nil =>
    intro s _
    exact ⟨rfl, fun x hx => absurd hx (List.not_mem_nil x)⟩
  | cons x xs ih =>
    intro s h
    obtain ⟨h1, h2, h3⟩ := h
    have hne : s.freelist ≠ 0 := by rw [h1]; exact h2
    have hk := kalloc_eq_of_ne s hne
    have hmem : (kalloc s).2.mem = s.mem := by rw [hk]
    have hfl : (kalloc s).2.freelist = loadNext s.mem x := by rw [hk, h1]
    have hcx : (kalloc s).2.ref_cnt (x / 4096) = 1 := by
      rw [hk, h1]
      exact Function.update_same _ _ _
    have hrec := ih (kalloc s).2 (by rw [hmem, hfl]; exact h3)
    show (kallocN xs.length (kalloc s).2).2.mem = s.mem ∧
      ∀ y ∈ x :: xs, (kallocN xs.length (kalloc s).2).2.ref_cnt (y / 4096) = 1
    refine ⟨by rw [hrec.1, hmem], fun y hy => ?_⟩
    rcases List.mem_cons.1 hy with rfl | hy2
    · exact kallocN_keeps_one _ _ _ hcx
    · exact hrec.2 y hy2

/-- Freeing the addresses `rs` one after the other, each with count 1 and none
of them on the current list `suf`, pushes them in turn: the final list is
`rs` reversed followed by `suf`. -/
theorem kfreeList_rebuild (L : Layout) (hP : L.PHYSTOP ≤ 2 ^ 32) (rs : List Nat) :
    ∀ (suf : List Nat) (t : State), (rs.reverse ++ suf).Nodup →
      (∀ x ∈ rs.reverse ++ suf, kfreeAccepts L x ∧ x ≠ 0) →
      FreeChain t.mem t.freelist suf → (∀ x ∈ rs, t.ref_cnt (x / 4096) = 1) →
      t.free_pages < 2 ^ 32 →
      ∃ u, kfreeList L t rs = .ok () u ∧ FreeChain u.mem u.freelist (rs.reverse ++ suf) ∧
        u.free_pages = (t.free_pages + rs.length) % 2 ^ 32 := by
  induction rs with
  | nil =>
    intro suf t _ _ hch _ hfp
    refine ⟨t, rfl, ?_, ?_⟩
    · simpa using hch
    · simp only [List.length_nil, Nat.add_zero]
      exact (Nat.mod_eq_of_lt hfp).symm
  | cons x rs ih =>
    intro suf t hnd hacc hch hcnt hfp
    have hlist : (x :: rs).reverse ++ suf = rs.reverse ++ (x :: suf) := by simp
    rw [hlist] at hnd hacc ⊢
    obtain ⟨_, hnd2, hdisj⟩ := List.nodup_append.1 hnd
    have hx := hacc x (List.mem_append_right _ (List.mem_cons_self x suf))
    have hxsuf : x ∉ suf := (List.nodup_cons.1 hnd2).1
    have hhead : t.freelist < 2 ^ 32 := by
      cases suf with
      | nil =>
        have h0 : t.freelist = 0 := hch
        omega
      | cons y ys =>
        have h1 : t.freelist = y := hch.1
        have h3 := (hacc y (List.mem_append_right _
          (List.mem_cons_of_mem x (List.mem_cons_self y ys)))).1.2.2
        omega
    have hpush := kfree_push_eq L t x hx.1
      (by rw [hcnt x (List.mem_cons_self x rs)])
    have hsufx : ∀ y ∈ suf, y % PGSIZE = 0 ∧ y ≠ x := fun y hy =>
      ⟨(hacc y (List.mem_append_right _ (List.mem_cons_of_mem x hy))).1.1,
        fun hyx => hxsuf (hyx ▸ hy)⟩
    have hchain := push_chain t.mem x t.freelist suf hx.1.1 hx.2 hhead hch hsufx
    have hstep : kfreeList L t (x :: rs) = kfreeList L { t with
        mem := storeNext (memset (memset t.mem x 1 PGSIZE) x 1 PGSIZE) x t.freelist
        ref_cnt := Function.update t.ref_cnt (x / 4096) 0
        freelist := x
        free_pages := (t.free_pages + 1) % 2 ^ 32 } rs := by
      simp only [kfreeList, hpush]
    rw [hstep]
    obtain ⟨u, hu1, hu2, hu3⟩ := ih (x :: suf) { t with
        mem := storeNext (memset (memset t.mem x 1 PGSIZE) x 1 PGSIZE) x t.freelist
        ref_cnt := Function.update t.ref_cnt (x / 4096) 0
        freelist := x
        free_pages := (t.free_pages + 1) % 2 ^ 32 } hnd hacc hchain
      (fun y hy => by
        have hyx : y ≠ x := fun hyx =>
          hdisj (List.mem_reverse.2 hy) (hyx ▸ List.mem_cons_self x suf)
        have hyal := (hacc y (List.mem_append_left _ (List.mem_reverse.2 hy))).1.1
        show Function.update t.ref_cnt (x / 4096) 0 (y / 4096) = 1
        rw [Function.update_noteq (div_ne_of_aligned y x hyal hx.1.1 hyx)]
        exact hcnt y (List.mem_cons_of_mem x hy))
      (by
        show (t.free_pages + 1) % 2 ^ 32 < 2 ^ 32
        omega)
    refine ⟨u, hu1, hu2, ?_⟩
    rw [hu3]
    show ((t.free_pages + 1) % 2 ^ 32 + rs.length) % 2 ^ 32 =
      (t.free_pages + (x :: rs).length) % 2 ^ 32
    simp only [List.length_cons]
    omega

/-- C13: in a state whose free list holds `n` distinct frames that `kfree`
accepts and whose free-page counter is `n`, calling `kalloc` `n` times returns
the frames in list order, and freeing them in the reverse order of allocation
succeeds and restores exactly the original list in the original order;
`getFreePagesCount` is again its original value `n`, and the next `kalloc`
returns the first frame of the list, the most recently freed address. -/
theorem alloc_all_free_reverse (L : Layout) (hP : L.PHYSTOP ≤ 2 ^ 32) (s : State)
    (l : List Nat) (n : Nat) (hch : FreeChain s.mem s.freelist l) (hnd : l.Nodup)
    (hacc : ∀ x ∈ l, kfreeAccepts L x) (hlen : l.length = n) (hfp : s.free_pages = n) :
    (kallocN n s).1 = l ∧ (getFreePagesCount s).1 = (n : Int) ∧
    ∃ t, kfreeList L (kallocN n s).2 (kallocN n s).1.reverse = .ok () t ∧
      FreeChain t.mem t.freelist l ∧ t.free_pages = n ∧
      (getFreePagesCount t).1 = (n : Int) ∧ (kalloc t).1 = l.headD 0 := by
  subst hlen
  have hN := nodup_length_le_of_bound L hP l hnd hacc
  obtain ⟨k1, k2, k3⟩ := kallocN_chain l s hch (by omega) (by omega)
  obtain ⟨_, c2⟩ := kallocN_chain_counts l s hch
  have hne := FreeChain_ne_zero s.mem l _ hch
  have hcount : (getFreePagesCount s).1 = (l.length : Int) := by
    simp only [getFreePagesCount, hfp]
    exact toInt32_small _ (by omega)
  refine ⟨k1, hcount, ?_⟩
  rw [k1]
  obtain ⟨u, hu1, hu2, hu3⟩ := kfreeList_rebuild L hP l.reverse [] (kallocN l.length s).2
    (by simpa using hnd)
    (fun x hx => by
      have hx2 : x ∈ l := by simpa using hx
      exact ⟨hacc x hx2, hne x hx2⟩)
    k2
    (fun x hx => c2 x (List.mem_reverse.1 hx))
    (by rw [k3]; omega)
  have hl : l.reverse.reverse ++ [] = l := by simp
  rw [hl] at hu2
  have hfpu : u.free_pages = l.length := by
    rw [hu3, k3, hfp, List.length_reverse]
    omega
  refine ⟨u, hu1, hu2, hfpu, ?_, ?_⟩
  · simp only [getFreePagesCount, hfpu]
    exact toInt32_small _ (by omega)
  · rw [kalloc_fst]
    cases l with
    | nil => exact hu2
    | cons x xs => exact hu2.1

/-- Instance of C13 for the three frames of the demo layout, starting from the
state `kinit` produces. -/
theorem alloc_all_free_reverse_witness :
    demoLayout.PHYSTOP ≤ 2 ^ 32 ∧
      ∃ t0, kinit demoLayout (boot (fun _ => 0)) = .ok () t0 ∧
        (kallocN 3 t0).1 = [12288, 8192, 4096] ∧
        ∃ t, kfreeList demoLayout (kallocN 3 t0).2 (kallocN 3 t0).1.reverse = .ok () t ∧
          FreeChain t.mem t.freelist [12288, 8192, 4096] ∧
          (getFreePagesCount t).1 = 3 ∧ (kalloc t).1 = 12288 := by
  have hP : demoLayout.PHYSTOP ≤ 2 ^ 32 := by decide
  obtain ⟨t0, ht0, hch, hfp, _, _⟩ := kinit_seeds demoLayout (by decide) (fun _ => 0)
  have hn : frameCount demoLayout = 3 := by decide
  have hl : framesDesc (PGROUNDUP demoLayout.kend) 3 = [12288, 8192, 4096] := by decide
  rw [hn] at hch hfp
  rw [hl] at hch
  obtain ⟨h1, _, t, h3, h4, _, h6, h7⟩ :=
    alloc_all_free_reverse demoLayout hP t0 [12288, 8192, 4096] 3 hch (by decide)
      (by decide) rfl hfp
  exact ⟨hP, t0, ht0, h1, t, h3, h4, h6, h7⟩

/-! ## The contract of `kfree` -/

end Kalloc
